import Mathlib

/-!
The class template `MathematicalVector<T, N>` and the free functions `concat` of
`src/lb3.cpp`, as a shallow embedding.

* `std::array<T, N> data` is a list of elements together with the proof that it has
  exactly `N` of them.
* `operator[]` is the unchecked access of `std::array`: inside `[0, N)` it reads or writes
  the element, outside it the behaviour of the program is undefined.  Undefined behaviour
  and the one exception the file throws (`std::out_of_range`, in `slice`) are the two ways
  in which an operation does not return; `Outcome` records which one happened.
* every `for` loop of the source is run by `forLoop`, which tests the loop condition,
  runs the body, increments the counter, and stops at the first body that does not return.
* `std::size_t` arithmetic done at run time (`start + M`, `start + i`, `++instanceCount`,
  `--instanceCount`) is arithmetic modulo `2 ^ w`, `w` the width of `std::size_t`.
* the built-in integer element types are `MachInt sgn w`: `w`-bit patterns, read as
  two's complement when `sgn` is true.  An operator works on promoted operands: a type
  narrower than `int` is promoted to `int`, any other type stays as it is (`Promoted`).
  `+`, `-`, `*` are taken at the width of the type the result has, as two's-complement
  hardware computes them; stored into an element of type `T`, as the scalar operators
  do, the result is the one wrapped at the width of `T`.  `/` is the quotient truncated
  toward zero and has no value where C++ gives it none: for a zero divisor, and for a
  quotient that is not a value of the promoted type, which is the least value of `int`
  or of a wider signed type divided by `-1`.  There is no wrapped result to fall back on
  in these two cases: the x86 division instruction raises the divide-error fault in both.
  For `short` and `signed char` the division is done in `int`, always has a value for a
  divisor other than zero, and the store converts it to `T`.
* the result type of an operator between vectors (`ResultType`, a `decltype`) and the
  built-in operators that compute its elements are chosen by the compiler from the
  element types; the operators between vectors take them as parameters, and
  `MachInt.plus`, `MachInt.times` are the ones of the integer types.
* a `const` member function is a function of the vector: it returns its result and has
  no way to change `*this`.
* the static counters are a state of their own (`Counters`); the operations on the
  elements do not depend on them.
* the loop of `menu()` is run pass by pass over what `std::cin` delivered (`Entry`); a
  pass yields what it does in order, the calls of core operators and the lines written
  (`Effect`), and hands the stored vector `v1` on to the next pass.
-/

namespace Lb3

/-! ## Outcomes of an operation -/

/-- The exceptions thrown by the source: only `std::out_of_range`, in `slice`. -/
inductive Thrown where
  | out_of_range
  deriving DecidableEq

/-- What a call does: returns a value, throws, or runs into undefined behaviour
(an access outside a `std::array`, an integer division without a value). -/
inductive Outcome (α : Type) where
  | ok (a : α)
  | thrown (e : Thrown)
  | undefined
  deriving DecidableEq

/-- Sequencing: the continuation runs only after a normal return. -/
def Outcome.bind {α β : Type} : Outcome α → (α → Outcome β) → Outcome β
  | .ok a, f => f a
  | .thrown e, _ => .thrown e
  | .undefined, _ => .undefined

/-- The loop `for (; i < hi; ++i) body` from the counter value `i` on, unrolled at most
`fuel` times: test the condition, run the body, increment, repeat. -/
def loopFrom {σ : Type} (hi : Nat) (body : Nat → σ → Outcome σ) :
    Nat → Nat → σ → Outcome σ
  | 0, _, s => .ok s
  | fuel + 1, i, s =>
    if i < hi then (body i s).bind (loopFrom hi body fuel (i + 1)) else .ok s

/-- The loop `for (std::size_t i = lo; i < hi; ++i) body`.  It makes `hi - lo` iterations
at most, so this fuel never runs out (`loopFrom_fuel`). -/
def forLoop {σ : Type} (lo hi : Nat) (body : Nat → σ → Outcome σ) (s : σ) : Outcome σ :=
  loopFrom hi body (hi - lo) lo s

/-! ## Element types -/

/-- What the class template asks of its element type `T`: the value `T{}` and the four
arithmetic operators with the result stored into a `T`, as in `result[i] = data[i] + scalar`.
`div` has no value where the C++ expression `x / y` has none. -/
class CppNum (T : Type) where
  zero : T
  add : T → T → T
  sub : T → T → T
  mul : T → T → T
  div : T → T → Option T

/-! ## The class template -/

/-- The class `MathematicalVector<T, N>`: its member `std::array<T, N> data`. -/
structure MathematicalVector (T : Type) (N : Nat) where
  data : List T
  size_eq : data.length = N
  deriving DecidableEq

namespace MathematicalVector

variable {T : Type} {N : Nat}

/-- The call `data.fill(value)` of the default and the fill constructor. -/
def filled (N : Nat) (value : T) : MathematicalVector T N :=
  ⟨List.replicate N value, List.length_replicate N value⟩

/-- The constructor `MathematicalVector()`: `data.fill(T{})`. -/
def ctorDefault [CppNum T] (N : Nat) : MathematicalVector T N :=
  filled N CppNum.zero

/-- The constructor `explicit MathematicalVector(const T& value)`: `data.fill(value)`. -/
def ctorFill (N : Nat) (value : T) : MathematicalVector T N :=
  filled N value

/-- Reading `vec[index]` through `operator[]`, which returns `data[index]` unchecked:
undefined outside `[0, N)`. -/
def read (v : MathematicalVector T N) (index : Nat) : Outcome T :=
  match v.data[index]? with
  | some x => .ok x
  | none => .undefined

/-- The assignment `vec[index] = x` through `operator[]`: undefined outside `[0, N)`. -/
def write (v : MathematicalVector T N) (index : Nat) (x : T) :
    Outcome (MathematicalVector T N) :=
  if index < N then
    .ok ⟨v.data.set index x, by rw [List.length_set]; exact v.size_eq⟩
  else .undefined

/-- The member function `size()`. -/
def size (_v : MathematicalVector T N) : Nat := N

/-- The member function `slice<M>(start)`.  `w` is the width of `std::size_t`; `start + M`
and `start + i` are computed in that type.  `static_assert(M > 0)` is checked by the
compiler: there is no instantiation with `M = 0`. -/
def slice [CppNum T] (w M : Nat) (v : MathematicalVector T N) (start : Nat) :
    Outcome (MathematicalVector T M) :=
  if (start + M) % 2 ^ w > N then .thrown .out_of_range
  else
    forLoop 0 M
      (fun i result => (v.read ((start + i) % 2 ^ w)).bind (fun x => result.write i x))
      (ctorDefault M)

/-- The first loop of `MathematicalVector(std::initializer_list<T> values)`:
`for (auto it = values.begin(); it != values.end() && i < N; ++it, ++i) data[i] = *it;`
It returns the counter `i` together with the array. -/
def initCopy : List T → Nat → MathematicalVector T N → Outcome (Nat × MathematicalVector T N)
  | [], i, d => .ok (i, d)
  | x :: rest, i, d =>
    if i < N then (d.write i x).bind (fun d1 => initCopy rest (i + 1) d1) else .ok (i, d)

/-- The constructor `MathematicalVector(std::initializer_list<T> values)`.  `raw` is the content of `data`
when the constructor body starts: the member is not initialised, so it is arbitrary. -/
def ctorInitList [CppNum T] (raw : MathematicalVector T N) (values : List T) :
    Outcome (MathematicalVector T N) :=
  (initCopy values 0 raw).bind
    (fun p => forLoop p.1 N (fun i d => d.write i CppNum.zero) p.2)

/-- The operator `operator+(const T& scalar)`. -/
def opAddScalar [CppNum T] (v : MathematicalVector T N) (scalar : T) :
    Outcome (MathematicalVector T N) :=
  forLoop 0 N
    (fun i result => (v.read i).bind (fun x => result.write i (CppNum.add x scalar)))
    (ctorDefault N)

/-- The operator `operator-(const T& scalar)`. -/
def opSubScalar [CppNum T] (v : MathematicalVector T N) (scalar : T) :
    Outcome (MathematicalVector T N) :=
  forLoop 0 N
    (fun i result => (v.read i).bind (fun x => result.write i (CppNum.sub x scalar)))
    (ctorDefault N)

/-- The operator `operator*(const T& scalar)`. -/
def opMulScalar [CppNum T] (v : MathematicalVector T N) (scalar : T) :
    Outcome (MathematicalVector T N) :=
  forLoop 0 N
    (fun i result => (v.read i).bind (fun x => result.write i (CppNum.mul x scalar)))
    (ctorDefault N)

/-- The expression `x / y` inside a loop body: undefined where it has no value. -/
def divide [CppNum T] (x y : T) : Outcome T :=
  match CppNum.div x y with
  | some q => .ok q
  | none => .undefined

/-- The operator `operator/(const T& scalar)`: the divisor is not tested. -/
def opDivScalar [CppNum T] (v : MathematicalVector T N) (scalar : T) :
    Outcome (MathematicalVector T N) :=
  forLoop 0 N
    (fun i result =>
      (v.read i).bind (fun x => (divide x scalar).bind (fun q => result.write i q)))
    (ctorDefault N)

/-- The operator `operator+(const MathematicalVector<U, N>& other)`.  `R` is
`ResultType = decltype(T{} + U{})` and `plus x y` is the expression `data[i] + other[i]`,
of that type. -/
def opAdd {U R : Type} [CppNum R] (plus : T → U → R) (v : MathematicalVector T N)
    (other : MathematicalVector U N) : Outcome (MathematicalVector R N) :=
  forLoop 0 N
    (fun i result =>
      (v.read i).bind (fun x => (other.read i).bind (fun y => result.write i (plus x y))))
    (ctorDefault N)

/-- The member function `resize<M>()`. -/
def resize [CppNum T] (M : Nat) (v : MathematicalVector T N) : Outcome (MathematicalVector T M) :=
  forLoop 0 (min N M)
    (fun i result => (v.read i).bind (fun x => result.write i x))
    (ctorDefault M)

/-- The member function `weighted_sum(w1, other, w2)`.  `S` is `Scalar`, `U` is `OtherT`,
`R` is `ResultType = decltype(w1 * T{} + w2 * OtherT{})`; `times1 w1 x` is the expression
`w1 * data[i]`, `times2 w2 y` is `w2 * other[i]`, and `plus` is the `+` between the two
products. -/
def weighted_sum {S U P1 P2 R : Type} [CppNum R] (times1 : S → T → P1) (times2 : S → U → P2)
    (plus : P1 → P2 → R) (v : MathematicalVector T N) (w1 : S)
    (other : MathematicalVector U N) (w2 : S) : Outcome (MathematicalVector R N) :=
  forLoop 0 N
    (fun i result =>
      (v.read i).bind (fun x => (other.read i).bind (fun y =>
        result.write i (plus (times1 w1 x) (times2 w2 y)))))
    (ctorDefault N)

end MathematicalVector

open MathematicalVector

/-- The element at index `i`, with `T{}` standing in outside the array. -/
def elemAt {T : Type} {N : Nat} [CppNum T] (v : MathematicalVector T N) (i : Nat) : T :=
  (v.data[i]?).getD CppNum.zero

/-- The function `concat(v1, v2)` for two vectors of one element type.  The result type
`MathematicalVector<T, N1 + N2>` exists, so `N1 + N2` and every `N1 + i` of the second
loop are values of `std::size_t`. -/
def concat {T : Type} [CppNum T] {N1 N2 : Nat} (v1 : MathematicalVector T N1)
    (v2 : MathematicalVector T N2) : Outcome (MathematicalVector T (N1 + N2)) :=
  (forLoop 0 N1 (fun i result => (v1.read i).bind (fun x => result.write i x))
      (ctorDefault (N1 + N2))).bind
    (fun result =>
      forLoop 0 N2 (fun i result => (v2.read i).bind (fun x => result.write (N1 + i) x)) result)

/-- The function `concat(v)`: `return v;`, a copy of the argument. -/
def concat1 {T : Type} {N : Nat} (v : MathematicalVector T N) : MathematicalVector T N := v

/-- The function `concat(v1, v2)` for two vectors of different element types `T1`, `T2`.
`R` is `ResultType = decltype(T1{} + T2{})`; `conv1` and `conv2` are the implicit
conversions of the assignments `result[i] = v1[i]` and `result[N1 + i] = v2[i]`. -/
def concatMixed {T1 T2 R : Type} [CppNum R] {N1 N2 : Nat} (conv1 : T1 → R) (conv2 : T2 → R)
    (v1 : MathematicalVector T1 N1) (v2 : MathematicalVector T2 N2) :
    Outcome (MathematicalVector R (N1 + N2)) :=
  (forLoop 0 N1 (fun i result => (v1.read i).bind (fun x => result.write i (conv1 x)))
      (ctorDefault (N1 + N2))).bind
    (fun result =>
      forLoop 0 N2
        (fun i result => (v2.read i).bind (fun x => result.write (N1 + i) (conv2 x))) result)

/-- A vector of any length: what one argument of the variadic `concat` is. -/
structure AnyVector (T : Type) where
  len : Nat
  vec : MathematicalVector T len

/-- The call `concat(v1, v2, rest...)` on vectors of one element type.  With an empty
pack the two-vector overload is the one chosen; otherwise the variadic overload runs:
`auto temp = concat(v1, v2); return concat(temp, rest...);`. -/
def concatVariadic {T : Type} [CppNum T] :
    AnyVector T → AnyVector T → List (AnyVector T) → Outcome (AnyVector T)
  | v1, v2, [] => (concat v1.vec v2.vec).bind (fun r => .ok ⟨v1.len + v2.len, r⟩)
  | v1, v2, v3 :: rest =>
    (concat v1.vec v2.vec).bind (fun temp => concatVariadic ⟨v1.len + v2.len, temp⟩ v3 rest)

/-! ## The instance counters -/

/-- The static members `instanceCount` and `totalCreated` of one instantiation
`MathematicalVector<T, N>`; both are `std::size_t`, both start at 0. -/
structure Counters where
  instanceCount : Nat
  totalCreated : Nat
  deriving DecidableEq

/-- The ways in which an object of the class comes into existence.  The class declares
three constructors; it declares no copy constructor, so a copy (a by-value return such as
`return v;` in `concat(v)`, a by-value parameter such as `Rest... rest`) is made by the
implicitly-defined one. -/
inductive Ctor where
  | default
  | fill
  | initList
  | copy
  deriving DecidableEq

/-- What happens to a vector object. -/
inductive Event where
  | construct (c : Ctor)
  | destroy
  deriving DecidableEq

/-- The effect of a constructor on the counters: each declared constructor ends with
`++instanceCount; ++totalCreated;`, the implicit copy constructor copies `data` only. -/
def onConstruct (w : Nat) (c : Ctor) (s : Counters) : Counters :=
  match c with
  | .copy => s
  | _ => ⟨(s.instanceCount + 1) % 2 ^ w, (s.totalCreated + 1) % 2 ^ w⟩

/-- The effect of `~MathematicalVector()`: `--instanceCount;` on a `std::size_t`. -/
def onDestroy (w : Nat) (s : Counters) : Counters :=
  ⟨(s.instanceCount + (2 ^ w - 1)) % 2 ^ w, s.totalCreated⟩

/-- One event. -/
def Event.apply (w : Nat) (s : Counters) : Event → Counters
  | .construct c => onConstruct w c s
  | .destroy => onDestroy w s

/-- A sequence of events, in program order. -/
def run (w : Nat) (s : Counters) (es : List Event) : Counters :=
  es.foldl (Event.apply w) s

/-- The constructions of an event sequence that run a declared constructor. -/
def countDeclared : List Event → Nat
  | [] => 0
  | .construct .copy :: es => countDeclared es
  | .construct _ :: es => countDeclared es + 1
  | .destroy :: es => countDeclared es

/-- The destructions of an event sequence. -/
def countDestroyed : List Event → Nat
  | [] => 0
  | .construct _ :: es => countDestroyed es
  | .destroy :: es => countDestroyed es + 1

/-! ## Built-in integer element types -/

/-- The width of `int`. -/
@[reducible] def intBits : Nat := 32

/-- A `w`-bit integer: its bit pattern.  `sgn` tells a signed type (two's complement)
from an unsigned one. -/
structure MachInt (sgn : Bool) (w : Nat) where
  bits : Nat
  isLt : bits < 2 ^ w
  deriving DecidableEq

namespace MachInt

variable {sgn : Bool} {w : Nat}

/-- The pattern of a natural number, reduced to the width. -/
def ofNat (n : Nat) : MachInt sgn w :=
  ⟨n % 2 ^ w, Nat.mod_lt _ (Nat.two_pow_pos w)⟩

/-- The pattern of an integer, reduced to the width. -/
def ofInt (z : Int) : MachInt sgn w :=
  ofNat (z % (2 ^ w : Nat)).toNat

/-- The value a pattern stands for. -/
def toInt (x : MachInt sgn w) : Int :=
  if sgn && decide (2 ^ w ≤ 2 * x.bits) then (x.bits : Int) - (2 ^ w : Nat) else (x.bits : Int)

/-- The sum `x + y` stored into the type of the operands: wrapped at the width. -/
def add (x y : MachInt sgn w) : MachInt sgn w := ofNat (x.bits + y.bits)

/-- The difference `x - y` stored into the type of the operands: wrapped at the width. -/
def sub (x y : MachInt sgn w) : MachInt sgn w := ofNat (x.bits + (2 ^ w - y.bits))

/-- The product `x * y` stored into the type of the operands: wrapped at the width. -/
def mul (x y : MachInt sgn w) : MachInt sgn w := ofNat (x.bits * y.bits)

/-- Whether the promoted type is signed: `int` is, any other type is what it was. -/
@[reducible] def promSigned (sgn : Bool) (w : Nat) : Bool := if w < intBits then true else sgn

/-- The width of the promoted type. -/
@[reducible] def promWidth (w : Nat) : Nat := if w < intBits then intBits else w

/-- The type an operand of type `MachInt sgn w` has after the integral promotions: `int`
for a type narrower than `int`, the type itself otherwise.  It is the type of `x + y`,
`x * y`, `x / y` for two operands of type `MachInt sgn w`. -/
abbrev Promoted (sgn : Bool) (w : Nat) : Type := MachInt (promSigned sgn w) (promWidth w)

/-- The promotion of an operand: the same value in the promoted type. -/
def promote (x : MachInt sgn w) : Promoted sgn w := ofInt x.toInt

/-- The expression `x + y` for two operands of one integer type, in the promoted type. -/
def plus (x y : MachInt sgn w) : Promoted sgn w := add (promote x) (promote y)

/-- The expression `x * y` for two operands of one integer type, in the promoted type. -/
def times (x y : MachInt sgn w) : Promoted sgn w := mul (promote x) (promote y)

/-- The quotient `x / y` stored into the type of the operands.  The division is done in
the promoted type and truncates toward zero; it has no value when `y` is zero or when the
quotient is not a value of the promoted type.  The store converts the quotient to the
width of the operands. -/
def div (x y : MachInt sgn w) : Option (MachInt sgn w) :=
  if y.bits = 0 then none
  else
    let q := Int.tdiv x.toInt y.toInt
    if (ofInt q : Promoted sgn w).toInt = q then some (ofInt q) else none

instance : CppNum (MachInt sgn w) where
  zero := ofNat 0
  add := add
  sub := sub
  mul := mul
  div := div

end MachInt

/-- The element type `int`: 32 bits, signed. -/
abbrev CInt := MachInt true 32

/-- An `int` vector from the values of its elements. -/
def intVector (zs : List Int) : MathematicalVector CInt zs.length :=
  ⟨zs.map MachInt.ofInt, List.length_map zs _⟩

/-! ## The console menu -/

/-- The four scalar operators the menu offers, choices 1 to 4. -/
inductive ScalarOp where
  | add
  | sub
  | mul
  | div
  deriving DecidableEq

/-- The core operator behind a choice. -/
def ScalarOp.apply {T : Type} [CppNum T] {N : Nat} (op : ScalarOp)
    (v : MathematicalVector T N) (scalar : T) : Outcome (MathematicalVector T N) :=
  match op with
  | .add => v.opAddScalar scalar
  | .sub => v.opSubScalar scalar
  | .mul => v.opMulScalar scalar
  | .div => v.opDivScalar scalar

/-- What one pass of the menu loop gets from `std::cin`: either `std::cin >> op` fails, or
it yields `op`; `scalar` is then the value the variable `scalar` has after
`std::cin >> scalar` (looked at by the choices 1 to 4 only). -/
inductive Entry (T : Type) where
  | unreadable
  | choice (op : Int) (scalar : T)

/-- The lines the loop writes after the menu text and the prompts. -/
inductive Line (T : Type) (N : Nat) where
  | invalidInput
  | exit
  | result (r : MathematicalVector T N)
  | divisionByZero
  | yourVector (v : MathematicalVector T N)
  | unknownOperation
  deriving DecidableEq

/-- What a pass of the loop does that can be seen from outside: it calls a core operator
on `v1` with a scalar, or it writes a line. -/
inductive Effect (T : Type) (N : Nat) where
  | call (op : ScalarOp) (scalar : T)
  | print (line : Line T N)
  deriving DecidableEq

/-- One pass of the loop: its effects in order, and how it ends: the stored vector `v1`
together with whether the loop goes on, or the failure of the core operator. -/
structure Pass (T : Type) (N : Nat) where
  effects : List (Effect T N)
  next : Outcome (MathematicalVector T N × Bool)

/-- The statements `result = v1 op scalar; std::cout << result;` of the choices 1 to 4. -/
def computeAndPrint {T : Type} [CppNum T] {N : Nat} (op : ScalarOp)
    (v1 : MathematicalVector T N) (scalar : T) : Pass T N :=
  match op.apply v1 scalar with
  | .ok result => ⟨[.call op scalar, .print (.result result)], .ok (v1, true)⟩
  | .thrown e => ⟨[.call op scalar], .thrown e⟩
  | .undefined => ⟨[.call op scalar], .undefined⟩

/-- One pass of `while (true) { ... }` in `menu()`, the same text in the `int` and in the
`float` branch.  `isZero` is the test `scalar == 0`, respectively `scalar == 0.0f`. -/
def menuPass {T : Type} [CppNum T] {N : Nat} (isZero : T → Bool)
    (v1 : MathematicalVector T N) : Entry T → Pass T N
  | .unreadable => ⟨[.print .invalidInput], .ok (v1, true)⟩
  | .choice op scalar =>
    if op = 6 then ⟨[.print .exit], .ok (v1, false)⟩
    else if op = 1 then computeAndPrint .add v1 scalar
    else if op = 2 then computeAndPrint .sub v1 scalar
    else if op = 3 then computeAndPrint .mul v1 scalar
    else if op = 4 then
      if isZero scalar then ⟨[.print .divisionByZero], .ok (v1, true)⟩
      else computeAndPrint .div v1 scalar
    else if op = 5 then ⟨[.print (.yourVector v1)], .ok (v1, true)⟩
    else ⟨[.print .unknownOperation], .ok (v1, true)⟩

/-- The loop of `menu()` over the entries read so far: the effects in order, and the
stored vector at the end (after `break`, or when the entries are used up), or the
failure that ended the run. -/
def menuLoop {T : Type} [CppNum T] {N : Nat} (isZero : T → Bool) :
    List (Entry T) → MathematicalVector T N → List (Effect T N) × Outcome (MathematicalVector T N)
  | [], v1 => ([], .ok v1)
  | e :: es, v1 =>
    match (menuPass isZero v1 e).next with
    | .ok (v, true) =>
      ((menuPass isZero v1 e).effects ++ (menuLoop isZero es v).1, (menuLoop isZero es v).2)
    | .ok (v, false) => ((menuPass isZero v1 e).effects, .ok v)
    | .thrown x => ((menuPass isZero v1 e).effects, .thrown x)
    | .undefined => ((menuPass isZero v1 e).effects, .undefined)

/-- The test `scalar == 0` of the `int` branch. -/
def intIsZero (scalar : CInt) : Bool := decide (scalar.toInt = 0)

/-! ## Loops and element access -/

section Loops

variable {T : Type} {N : Nat}

theorem Outcome.bind_ok {α β : Type} (a : α) (f : α → Outcome β) :
    (Outcome.ok a).bind f = f a := rfl

theorem Outcome.bind_undefined {α β : Type} (f : α → Outcome β) :
    (Outcome.undefined : Outcome α).bind f = .undefined := rfl

/-- Fuel beyond `hi - i` changes nothing: the loop has ended by then. -/
theorem loopFrom_fuel {σ : Type} (hi : Nat) (body : Nat → σ → Outcome σ) :
    ∀ (fuel i : Nat) (s : σ), hi ≤ i + fuel → ∀ extra : Nat,
      loopFrom hi body (fuel + extra) i s = loopFrom hi body fuel i s := by
  intro fuel
  induction fuel with
  | zero =>
    intro i s hle extra
    cases extra with
    | zero => rfl
    | succ e =>
      have hlt : ¬ i < hi := by omega
      simp only [Nat.zero_add, loopFrom, if_neg hlt]
  | succ fuel ih =>
    intro i s hle extra
    have e : fuel + 1 + extra = (fuel + extra) + 1 := by omega
    rw [e]
    simp only [loopFrom]
    have hfun : loopFrom hi body (fuel + extra) (i + 1) = loopFrom hi body fuel (i + 1) := by
      funext t
      exact ih (i + 1) t (by omega) extra
    rw [hfun]

theorem loopFrom_invariant {σ : Type} (hi : Nat) (body : Nat → σ → Outcome σ)
    (P : Nat → σ → Prop) :
    ∀ (fuel i : Nat) (s : σ), hi ≤ i + fuel → i ≤ hi → P i s →
      (∀ j t, i ≤ j → j < hi → P j t → ∃ t1, body j t = .ok t1 ∧ P (j + 1) t1) →
      ∃ s1, loopFrom hi body fuel i s = .ok s1 ∧ P hi s1 := by
  intro fuel
  induction fuel with
  | zero =>
    intro i s hfuel hle hP _
    have hi_eq : i = hi := by omega
    subst hi_eq
    exact ⟨s, rfl, hP⟩
  | succ fuel ih =>
    intro i s hfuel hle hP hstep
    by_cases hlt : i < hi
    · obtain ⟨t1, hb, hP1⟩ := hstep i s (Nat.le_refl i) hlt hP
      obtain ⟨s1, hrun, hP2⟩ := ih (i + 1) t1 (by omega) (by omega) hP1
        (fun j t hj hjlt hPj => hstep j t (by omega) hjlt hPj)
      refine ⟨s1, ?_, hP2⟩
      simp only [loopFrom, if_pos hlt, hb, Outcome.bind]
      exact hrun
    · have hi_eq : i = hi := by omega
      subst hi_eq
      exact ⟨s, by simp [loopFrom], hP⟩

theorem forLoop_invariant {σ : Type} (lo hi : Nat) (body : Nat → σ → Outcome σ)
    (P : Nat → σ → Prop) (s : σ) (hle : lo ≤ hi) (hP : P lo s)
    (hstep : ∀ j t, lo ≤ j → j < hi → P j t → ∃ t1, body j t = .ok t1 ∧ P (j + 1) t1) :
    ∃ s1, forLoop lo hi body s = .ok s1 ∧ P hi s1 :=
  loopFrom_invariant hi body P (hi - lo) lo s (by omega) hle hP hstep

theorem read_of_lt (v : MathematicalVector T N) {i : Nat} (h : i < N) :
    ∃ x, v.data[i]? = some x ∧ v.read i = .ok x := by
  have hlen : i < v.data.length := by rw [v.size_eq]; exact h
  refine ⟨v.data[i], List.getElem?_eq_getElem hlen, ?_⟩
  simp [MathematicalVector.read, List.getElem?_eq_getElem hlen]

theorem read_of_ge (v : MathematicalVector T N) {i : Nat} (h : N ≤ i) :
    v.read i = .undefined := by
  have hlen : v.data.length ≤ i := by rw [v.size_eq]; exact h
  simp [MathematicalVector.read, List.getElem?_eq_none hlen]

theorem read_eq_ok (v : MathematicalVector T N) {i : Nat} {x : T} (h : v.data[i]? = some x) :
    v.read i = .ok x := by
  simp [MathematicalVector.read, h]

theorem write_of_lt (v : MathematicalVector T N) {i : Nat} (h : i < N) (x : T) :
    ∃ r, v.write i x = .ok r ∧ r.data = v.data.set i x := by
  refine ⟨⟨v.data.set i x, by rw [List.length_set]; exact v.size_eq⟩, ?_, rfl⟩
  simp [MathematicalVector.write, h]

theorem getElem?_lt (v : MathematicalVector T N) {i : Nat} (h : i < N) :
    ∃ x, v.data[i]? = some x := by
  obtain ⟨x, hx, _⟩ := read_of_lt v h
  exact ⟨x, hx⟩

theorem getElem?_ge (v : MathematicalVector T N) {i : Nat} (h : N ≤ i) :
    v.data[i]? = none := by
  apply List.getElem?_eq_none
  rw [v.size_eq]; exact h

theorem ext_data {a b : MathematicalVector T N} (h : a.data = b.data) : a = b := by
  cases a; cases b; cases h; rfl

theorem ext_getElem? {a b : MathematicalVector T N} (h : ∀ i, i < N → a.data[i]? = b.data[i]?) :
    a = b := by
  apply ext_data
  apply List.ext_getElem?
  intro i
  by_cases hi : i < N
  · exact h i hi
  · rw [getElem?_ge a (by omega), getElem?_ge b (by omega)]

/-- A loop whose body at counter `i` stores `f i` at index `off + i`: it returns, the
indices `off + lo .. off + hi - 1` hold the stored values, and every other element is
as before. -/
theorem forLoop_store {K : Nat} (body : Nat → MathematicalVector T K → Outcome (MathematicalVector T K))
    (f : Nat → T) (off lo hi : Nat) (r0 : MathematicalVector T K)
    (hle : lo ≤ hi) (hK : off + hi ≤ K)
    (hbody : ∀ i r, lo ≤ i → i < hi → body i r = r.write (off + i) (f i)) :
    ∃ r, forLoop lo hi body r0 = .ok r ∧
      ∀ j, r.data[j]? =
        if off + lo ≤ j ∧ j < off + hi then some (f (j - off)) else r0.data[j]? := by
  apply forLoop_invariant lo hi body
    (fun n r => ∀ j, r.data[j]? =
      if off + lo ≤ j ∧ j < off + n then some (f (j - off)) else r0.data[j]?) r0 hle
  · intro j
    rw [if_neg (by omega)]
  · intro i r hlo hhi hinv
    obtain ⟨r1, hw, hdata⟩ := write_of_lt r (show off + i < K by omega) (f i)
    refine ⟨r1, by rw [hbody i r hlo hhi, hw], ?_⟩
    intro j
    rw [hdata, List.getElem?_set]
    by_cases hj : off + i = j
    · subst hj
      have hlen : off + i < r.data.length := by rw [r.size_eq]; omega
      simp [hlen, hlo]
    · rw [if_neg hj, hinv j]
      by_cases hc : off + lo ≤ j ∧ j < off + i
      · rw [if_pos hc, if_pos (by omega)]
      · rw [if_neg hc, if_neg (by omega)]

theorem getElem?_elemAt [CppNum T] (v : MathematicalVector T N) {i : Nat} (h : i < N) :
    v.data[i]? = some (elemAt v i) := by
  obtain ⟨x, hx⟩ := getElem?_lt v h
  simp [elemAt, hx]

theorem read_elemAt [CppNum T] (v : MathematicalVector T N) {i : Nat} (h : i < N) :
    v.read i = .ok (elemAt v i) :=
  read_eq_ok v (getElem?_elemAt v h)

theorem ctorDefault_getElem? [CppNum T] (K j : Nat) :
    (ctorDefault K : MathematicalVector T K).data[j]? =
      if j < K then some CppNum.zero else none := by
  simp only [ctorDefault, filled, List.getElem?_replicate]

end Loops

/-! ## `slice` -/

section Slice

variable {T : Type} [CppNum T] {N : Nat}

/-- Inside the array `slice<M>(start)` returns the elements `start .. start + M - 1`. -/
theorem slice_in_range (w M : Nat) (v : MathematicalVector T N) (start : Nat)
    (hN : N < 2 ^ w) (h : start + M ≤ N) :
    ∃ r, v.slice w M start = .ok r ∧ ∀ i, i < M → r.data[i]? = v.data[start + i]? := by
  have hcheck : ¬ (start + M) % 2 ^ w > N := by
    rw [Nat.mod_eq_of_lt (by omega)]; omega
  obtain ⟨r, hr, hdata⟩ := forLoop_store
    (fun i result => (v.read ((start + i) % 2 ^ w)).bind (fun x => result.write i x))
    (fun i => elemAt v (start + i)) 0 0 M (ctorDefault M) (Nat.zero_le M) (by omega)
    (by
      intro i r _ hi
      show (v.read ((start + i) % 2 ^ w)).bind (fun x => r.write i x) = _
      rw [Nat.mod_eq_of_lt (by omega), read_elemAt v (show start + i < N by omega)]
      simp [Outcome.bind])
  refine ⟨r, ?_, ?_⟩
  · simp only [MathematicalVector.slice, if_neg hcheck]
    exact hr
  · intro i hi
    rw [hdata i, if_pos (by omega), getElem?_elemAt v (show start + i < N by omega)]
    simp

/-- Past the end of the array, and without wrap-around of `start + M`, `slice<M>(start)`
throws `std::out_of_range` before the result vector is made and before any element is
read. -/
theorem slice_past_end (w M : Nat) (v : MathematicalVector T N) (start : Nat)
    (hsum : N < start + M) (hrep : start + M < 2 ^ w) :
    v.slice w M start = .thrown .out_of_range := by
  have hcheck : (start + M) % 2 ^ w > N := by
    rw [Nat.mod_eq_of_lt hrep]; exact hsum
  simp only [MathematicalVector.slice, if_pos hcheck]

/-- When `start + M` wraps around to a value that passes the test, the loop starts and its
first read `data[start]` is outside the array. -/
theorem slice_wrapped (w M : Nat) (v : MathematicalVector T N) (start : Nat)
    (hM : 0 < M) (hstart : start < 2 ^ w) (hwrap : (start + M) % 2 ^ w ≤ N)
    (hout : N ≤ start) :
    v.slice w M start = .undefined := by
  have hcheck : ¬ (start + M) % 2 ^ w > N := by omega
  obtain ⟨k, rfl⟩ : ∃ k, M = k + 1 := ⟨M - 1, by omega⟩
  simp only [MathematicalVector.slice, if_neg hcheck, forLoop, Nat.sub_zero, loopFrom,
    Nat.add_zero, Nat.mod_eq_of_lt hstart, read_of_ge v hout, Outcome.bind]
  simp

end Slice

/-! ## The initializer-list constructor -/

section InitList

variable {T : Type} {N : Nat}

theorem initCopy_spec :
    ∀ (xs : List T) (i : Nat) (d : MathematicalVector T N), i ≤ N →
      ∃ d1, initCopy xs i d = .ok (min N (i + xs.length), d1) ∧
        ∀ j, d1.data[j]? =
          if i ≤ j ∧ j < min N (i + xs.length) then xs[j - i]? else d.data[j]? := by
  intro xs
  induction xs with
  | nil =>
    intro i d hi
    refine ⟨d, ?_, ?_⟩
    · simp only [initCopy, List.length_nil, Nat.add_zero, Nat.min_eq_right hi]
    · intro j
      rw [if_neg]
      simp only [List.length_nil, Nat.add_zero, Nat.min_eq_right hi]
      omega
  | cons x rest ih =>
    intro i d hi
    by_cases hlt : i < N
    · obtain ⟨d0, hw, hd0⟩ := write_of_lt d hlt x
      obtain ⟨d1, hrun, hd1⟩ := ih (i + 1) d0 hlt
      have hlen : i + 1 + rest.length = i + (x :: rest).length := by
        simp only [List.length_cons]; omega
      refine ⟨d1, ?_, ?_⟩
      · simp only [initCopy, if_pos hlt, hw, Outcome.bind]
        rw [hrun, hlen]
      · intro j
        rw [hd1 j, hlen, hd0, List.getElem?_set]
        have hdlen : i < d.data.length := by rw [d.size_eq]; exact hlt
        by_cases hji : i = j
        · subst hji
          have hmin : i < min N (i + (x :: rest).length) := by
            simp only [List.length_cons]; omega
          have hc : i ≤ i ∧ i < min N (i + (x :: rest).length) := ⟨Nat.le_refl i, hmin⟩
          rw [if_neg (show ¬ (i + 1 ≤ i ∧ i < min N (i + (x :: rest).length)) by omega),
            if_pos hc, if_pos rfl, if_pos hdlen, Nat.sub_self, List.getElem?_cons_zero]
        · by_cases hc : i + 1 ≤ j ∧ j < min N (i + (x :: rest).length)
          · have hc1 : i ≤ j ∧ j < min N (i + (x :: rest).length) := ⟨by omega, hc.2⟩
            rw [if_pos hc, if_pos hc1]
            obtain ⟨k, hk⟩ : ∃ k, j - i = k + 1 := ⟨j - i - 1, by omega⟩
            have hk1 : j - (i + 1) = k := by omega
            rw [hk, hk1, List.getElem?_cons_succ]
          · have hc1 : ¬ (i ≤ j ∧ j < min N (i + (x :: rest).length)) := by omega
            rw [if_neg hc, if_neg hji, if_neg hc1]
    · have hiN : i = N := by omega
      subst hiN
      refine ⟨d, ?_, ?_⟩
      · simp only [initCopy, if_neg hlt]
        rw [Nat.min_eq_left (Nat.le_add_right i _)]
      · intro j
        rw [if_neg]
        rw [Nat.min_eq_left (Nat.le_add_right i _)]
        omega

theorem ctorInitList_getElem? [CppNum T] (raw : MathematicalVector T N) (xs : List T) :
    ∃ r, ctorInitList raw xs = .ok r ∧
      ∀ j, j < N → r.data[j]? = some ((xs[j]?).getD CppNum.zero) := by
  obtain ⟨d1, hcopy, hd1⟩ := initCopy_spec xs 0 raw (Nat.zero_le N)
  obtain ⟨r, hfill, hr⟩ := forLoop_store (fun i (d : MathematicalVector T N) => d.write i CppNum.zero)
    (fun _ => (CppNum.zero : T)) 0 (min N (0 + xs.length)) N d1 (Nat.min_le_left _ _)
    (by omega) (by intro i d _ _; simp only [Nat.zero_add])
  refine ⟨r, ?_, ?_⟩
  · simp only [ctorInitList, hcopy, Outcome.bind]
    exact hfill
  · intro j hj
    rw [hr j]
    simp only [Nat.zero_add] at hd1 ⊢
    by_cases hc : min N xs.length ≤ j ∧ j < N
    · rw [if_pos hc]
      have hnone : xs[j]? = none := List.getElem?_eq_none (by omega)
      rw [hnone]; rfl
    · rw [if_neg hc, hd1 j, if_pos ⟨Nat.zero_le j, by omega⟩, Nat.sub_zero]
      have hlen : j < xs.length := by omega
      rw [List.getElem?_eq_getElem hlen]; rfl

end InitList

/-! ## `resize` and `concat` -/

section ResizeConcat

variable {T : Type} [CppNum T]

theorem resize_getElem? {N : Nat} (M : Nat) (v : MathematicalVector T N) :
    ∃ r, v.resize M = .ok r ∧
      ∀ j, j < M → r.data[j]? = if j < N then v.data[j]? else some CppNum.zero := by
  obtain ⟨r, hr, hdata⟩ := forLoop_store
    (fun i result => (v.read i).bind (fun x => result.write i x))
    (fun i => elemAt v i) 0 0 (min N M) (ctorDefault M) (Nat.zero_le _)
    (by omega)
    (by
      intro i r _ hi
      show (v.read i).bind (fun x => r.write i x) = _
      rw [read_elemAt v (show i < N by omega)]
      simp [Outcome.bind])
  refine ⟨r, hr, ?_⟩
  intro j hj
  rw [hdata j, ctorDefault_getElem?, if_pos hj]
  by_cases hjN : j < N
  · have hc : 0 + 0 ≤ j ∧ j < 0 + min N M := by omega
    rw [if_pos hc, if_pos hjN, getElem?_elemAt v hjN, Nat.sub_zero]
  · have hc : ¬ (0 + 0 ≤ j ∧ j < 0 + min N M) := by omega
    rw [if_neg hc, if_neg hjN]

theorem concat_data {N1 N2 : Nat} (v1 : MathematicalVector T N1) (v2 : MathematicalVector T N2) :
    ∃ c, concat v1 v2 = .ok c ∧ c.data = v1.data ++ v2.data := by
  obtain ⟨r1, hr1, hd1⟩ := forLoop_store
    (fun i result => (v1.read i).bind (fun x => result.write i x))
    (fun i => elemAt v1 i) 0 0 N1 (ctorDefault (N1 + N2)) (Nat.zero_le _) (by omega)
    (by
      intro i r _ hi
      show (v1.read i).bind (fun x => r.write i x) = _
      rw [read_elemAt v1 hi]
      simp [Outcome.bind])
  obtain ⟨r2, hr2, hd2⟩ := forLoop_store
    (fun i result => (v2.read i).bind (fun x => result.write (N1 + i) x))
    (fun i => elemAt v2 i) N1 0 N2 r1 (Nat.zero_le _) (Nat.le_refl _)
    (by
      intro i r _ hi
      show (v2.read i).bind (fun x => r.write (N1 + i) x) = _
      rw [read_elemAt v2 hi]
      simp [Outcome.bind])
  refine ⟨r2, ?_, ?_⟩
  · unfold concat
    rw [hr1, Outcome.bind_ok]
    exact hr2
  · apply List.ext_getElem?
    intro j
    rw [hd2 j, hd1 j, ctorDefault_getElem?]
    by_cases h1 : j < N1
    · have hc : ¬ (N1 + 0 ≤ j ∧ j < N1 + N2) := by omega
      have hc1 : 0 + 0 ≤ j ∧ j < 0 + N1 := by omega
      rw [if_neg hc, if_pos hc1, Nat.sub_zero, ← getElem?_elemAt v1 h1,
        List.getElem?_append_left (by rw [v1.size_eq]; exact h1)]
    · have hlen : v1.data.length ≤ j := by rw [v1.size_eq]; omega
      rw [List.getElem?_append_right hlen, v1.size_eq]
      by_cases h2 : j < N1 + N2
      · have hc : N1 + 0 ≤ j ∧ j < N1 + N2 := by omega
        rw [if_pos hc, ← getElem?_elemAt v2 (show j - N1 < N2 by omega)]
      · have hc : ¬ (N1 + 0 ≤ j ∧ j < N1 + N2) := by omega
        have hc1 : ¬ (0 + 0 ≤ j ∧ j < 0 + N1) := by omega
        rw [if_neg hc, if_neg hc1, if_neg h2, getElem?_ge v2 (show N2 ≤ j - N1 by omega)]

end ResizeConcat

/-! ## Arithmetic operators -/

section Arithmetic

variable {T : Type} [CppNum T] {N : Nat}

/-- A loop that stores `g (v[i])` at index `i` of a fresh vector, for every `i`. -/
theorem forLoop_pointwise (v : MathematicalVector T N) (g : T → T) :
    ∃ r, forLoop 0 N (fun i result => (v.read i).bind (fun x => result.write i (g x)))
        (ctorDefault N) = .ok r ∧ r.data = v.data.map g := by
  obtain ⟨r, hr, hdata⟩ := forLoop_store
    (fun i result => (v.read i).bind (fun x => result.write i (g x)))
    (fun i => g (elemAt v i)) 0 0 N (ctorDefault N) (Nat.zero_le _) (by omega)
    (by
      intro i r _ hi
      show (v.read i).bind (fun x => r.write i (g x)) = _
      rw [read_elemAt v hi, Outcome.bind_ok, Nat.zero_add])
  refine ⟨r, hr, ?_⟩
  apply List.ext_getElem?
  intro j
  rw [hdata j, List.getElem?_map, ctorDefault_getElem?]
  by_cases hj : j < N
  · have hc : 0 + 0 ≤ j ∧ j < 0 + N := by omega
    rw [if_pos hc, Nat.sub_zero, getElem?_elemAt v hj]
    rfl
  · have hc : ¬ (0 + 0 ≤ j ∧ j < 0 + N) := by omega
    rw [if_neg hc, if_neg hj, getElem?_ge v (by omega)]
    rfl

theorem opAddScalar_data (v : MathematicalVector T N) (s : T) :
    ∃ r, v.opAddScalar s = .ok r ∧ r.data = v.data.map (fun x => CppNum.add x s) :=
  forLoop_pointwise v (fun x => CppNum.add x s)

theorem opSubScalar_data (v : MathematicalVector T N) (s : T) :
    ∃ r, v.opSubScalar s = .ok r ∧ r.data = v.data.map (fun x => CppNum.sub x s) :=
  forLoop_pointwise v (fun x => CppNum.sub x s)

theorem opMulScalar_data (v : MathematicalVector T N) (s : T) :
    ∃ r, v.opMulScalar s = .ok r ∧ r.data = v.data.map (fun x => CppNum.mul x s) :=
  forLoop_pointwise v (fun x => CppNum.mul x s)

/-- Scalar division returns when every element has a quotient by the scalar. -/
theorem opDivScalar_data (v : MathematicalVector T N) (s : T)
    (hdef : ∀ x, x ∈ v.data → (CppNum.div x s).isSome) :
    ∃ r, v.opDivScalar s = .ok r ∧
      ∀ j, j < N → r.data[j]? = (v.data[j]?).bind (fun x => CppNum.div x s) := by
  obtain ⟨r, hr, hdata⟩ := forLoop_store
    (fun i result =>
      (v.read i).bind (fun x => (divide x s).bind (fun q => result.write i q)))
    (fun i => ((CppNum.div (elemAt v i) s).getD CppNum.zero)) 0 0 N (ctorDefault N)
    (Nat.zero_le _) (by omega)
    (by
      intro i r _ hi
      show (v.read i).bind (fun x => (divide x s).bind (fun q => r.write i q)) = _
      have hmem : elemAt v i ∈ v.data := List.getElem?_mem (getElem?_elemAt v hi)
      obtain ⟨q, hq⟩ := Option.isSome_iff_exists.mp (hdef _ hmem)
      rw [read_elemAt v hi, Outcome.bind_ok]
      simp only [divide, hq, Outcome.bind_ok, Nat.zero_add, Option.getD_some])
  refine ⟨r, hr, ?_⟩
  intro j hj
  have hc : 0 + 0 ≤ j ∧ j < 0 + N := by omega
  have hmem : elemAt v j ∈ v.data := List.getElem?_mem (getElem?_elemAt v hj)
  obtain ⟨q, hq⟩ := Option.isSome_iff_exists.mp (hdef _ hmem)
  rw [hdata j, if_pos hc, Nat.sub_zero, getElem?_elemAt v hj, Option.some_bind, hq]
  rfl

/-- Scalar division is undefined as soon as the first element has no quotient. -/
theorem opDivScalar_first (v : MathematicalVector T N) (s : T) (hN : 0 < N)
    (hnone : ∀ x : T, CppNum.div x s = none) :
    v.opDivScalar s = .undefined := by
  obtain ⟨k, rfl⟩ : ∃ k, N = k + 1 := ⟨N - 1, by omega⟩
  simp only [opDivScalar, forLoop, Nat.sub_zero, loopFrom, Nat.zero_lt_succ, if_true,
    read_elemAt v (Nat.zero_lt_succ k), Outcome.bind_ok, divide, hnone,
    Outcome.bind_undefined]

end Arithmetic

/-! ## Machine integers -/

namespace MachInt

variable {sgn : Bool} {w : Nat}

theorem ext_bits {x y : MachInt sgn w} (h : x.bits = y.bits) : x = y := by
  cases x; cases y; cases h; rfl

theorem add_comm (x y : MachInt sgn w) : add x y = add y x := by
  apply ext_bits
  simp only [add, ofNat, Nat.add_comm]

theorem add_sub_cancel (x s : MachInt sgn w) : sub (add x s) s = x := by
  apply ext_bits
  have hx := x.isLt
  have hs := s.isLt
  show ((x.bits + s.bits) % 2 ^ w + (2 ^ w - s.bits)) % 2 ^ w = x.bits
  generalize 2 ^ w = m at hx hs ⊢
  by_cases h : x.bits + s.bits < m
  · rw [Nat.mod_eq_of_lt h]
    have e : x.bits + s.bits + (m - s.bits) = x.bits + m := by omega
    rw [e, Nat.add_mod_right, Nat.mod_eq_of_lt hx]
  · have e1 : (x.bits + s.bits) % m = x.bits + s.bits - m := by
      rw [Nat.mod_eq_sub_mod (by omega), Nat.mod_eq_of_lt (by omega)]
    have e : x.bits + s.bits - m + (m - s.bits) = x.bits := by omega
    rw [e1, e, Nat.mod_eq_of_lt hx]

theorem ofInt_zero_bits : (ofInt 0 : MachInt sgn w).bits = 0 := by
  simp [ofInt, ofNat]

theorem div_by_zero (x s : MachInt sgn w) (hs : s.bits = 0) : div x s = none := by
  simp only [div, hs, if_true]

theorem ofInt_bits (z : Int) :
    (((ofInt z : MachInt sgn w).bits : Nat) : Int) = z % ((2 ^ w : Nat) : Int) := by
  have hm : (0 : Int) < ((2 ^ w : Nat) : Int) := Int.ofNat_lt.mpr (Nat.two_pow_pos w)
  have h0 : 0 ≤ z % ((2 ^ w : Nat) : Int) := Int.emod_nonneg z (by omega)
  have h1 : z % ((2 ^ w : Nat) : Int) < ((2 ^ w : Nat) : Int) := Int.emod_lt_of_pos z hm
  have hlt : (z % ((2 ^ w : Nat) : Int)).toNat < 2 ^ w := by omega
  show (((z % ((2 ^ w : Nat) : Int)).toNat % 2 ^ w : Nat) : Int) = _
  rw [Nat.mod_eq_of_lt hlt]
  omega

theorem toInt_unsigned (x : MachInt false w) : x.toInt = (x.bits : Int) := by
  simp [toInt]

theorem toInt_signed (x : MachInt true w) :
    x.toInt = if 2 ^ w ≤ 2 * x.bits then (x.bits : Int) - ((2 ^ w : Nat) : Int)
      else (x.bits : Int) := by
  simp [toInt]

/-- The values of an unsigned type are `0 .. 2 ^ w - 1`. -/
theorem toInt_range_unsigned (x : MachInt false w) :
    0 ≤ x.toInt ∧ x.toInt < ((2 ^ w : Nat) : Int) := by
  have := x.isLt
  rw [toInt_unsigned]
  omega

/-- The values of a signed type are `-2 ^ (w - 1) .. 2 ^ (w - 1) - 1`. -/
theorem toInt_range_signed (x : MachInt true w) :
    -((2 ^ w : Nat) : Int) ≤ 2 * x.toInt ∧ 2 * x.toInt < ((2 ^ w : Nat) : Int) := by
  have := x.isLt
  rw [toInt_signed]
  split <;> omega

theorem toInt_ofInt_unsigned (z : Int) :
    (ofInt z : MachInt false w).toInt = z ↔ 0 ≤ z ∧ z < ((2 ^ w : Nat) : Int) := by
  constructor
  · intro h
    have := toInt_range_unsigned (ofInt z : MachInt false w)
    rw [h] at this
    exact this
  · intro ⟨h0, h1⟩
    rw [toInt_unsigned, ofInt_bits, Int.emod_eq_of_lt h0 h1]

theorem toInt_ofInt_signed (z : Int) :
    (ofInt z : MachInt true w).toInt = z ↔
      -((2 ^ w : Nat) : Int) ≤ 2 * z ∧ 2 * z < ((2 ^ w : Nat) : Int) := by
  constructor
  · intro h
    have := toInt_range_signed (ofInt z : MachInt true w)
    rw [h] at this
    exact this
  · intro ⟨h0, h1⟩
    have hm : (0 : Int) < ((2 ^ w : Nat) : Int) := Int.ofNat_lt.mpr (Nat.two_pow_pos w)
    have hb := @ofInt_bits true w z
    rw [toInt_signed]
    by_cases hz : 0 ≤ z
    · rw [Int.emod_eq_of_lt hz (by omega)] at hb
      rw [if_neg (by omega)]
      exact hb
    · have e : z % ((2 ^ w : Nat) : Int) = z + ((2 ^ w : Nat) : Int) := by
        rw [← Int.add_emod_self, Int.emod_eq_of_lt (by omega) (by omega)]
      rw [e] at hb
      rw [if_pos (by omega)]
      omega

theorem toInt_eq_zero_iff (x : MachInt sgn w) : x.toInt = 0 ↔ x.bits = 0 := by
  have := x.isLt
  cases sgn
  · rw [toInt_unsigned]; omega
  · rw [toInt_signed]; split <;> omega

/-- An integer comes back from its pattern when it is a value of the type. -/
theorem toInt_ofInt_iff (z : Int) :
    (ofInt z : MachInt sgn w).toInt = z ↔
      ((sgn = true → -((2 ^ w : Nat) : Int) ≤ 2 * z ∧ 2 * z < ((2 ^ w : Nat) : Int)) ∧
        (sgn = false → 0 ≤ z ∧ z < ((2 ^ w : Nat) : Int))) := by
  cases sgn
  · rw [toInt_ofInt_unsigned]
    simp
  · rw [toInt_ofInt_signed]
    simp

/-- The quotient by a divisor other than zero is a value of the type of the operands,
but for the least value of a signed type divided by `-1`. -/
theorem tdiv_value_iff (x s : MachInt sgn w) (hs0 : s.toInt ≠ 0) :
    (ofInt (Int.tdiv x.toInt s.toInt) : MachInt sgn w).toInt = Int.tdiv x.toInt s.toInt ↔
      ¬ (2 * x.toInt = -((2 ^ w : Nat) : Int) ∧ s.toInt = -1) := by
  have habs := Int.natAbs_tdiv x.toInt s.toInt
  have hle : (x.toInt.natAbs).div (s.toInt.natAbs) ≤ x.toInt.natAbs := Nat.div_le_self _ _
  cases sgn
  · have hx := toInt_range_unsigned x
    have hsr := toInt_range_unsigned s
    rw [toInt_ofInt_unsigned]
    have hnn : 0 ≤ Int.tdiv x.toInt s.toInt := Int.tdiv_nonneg hx.1 hsr.1
    constructor
    · intro _
      omega
    · intro _
      exact ⟨hnn, by omega⟩
  · have hx := toInt_range_signed x
    have hsr := toInt_range_signed s
    rw [toInt_ofInt_signed]
    constructor
    · intro hr
      intro ⟨hmin, hneg⟩
      rw [hneg, show (-1 : Int) = -(1 : Int) from rfl, Int.tdiv_neg, Int.tdiv_one] at hr
      omega
    · intro hcorner
      refine ⟨by omega, ?_⟩
      by_contra hbig
      have hqa : (Int.tdiv x.toInt s.toInt).natAbs = x.toInt.natAbs := by omega
      have hxpos : 0 < x.toInt.natAbs := by omega
      have hs1 : s.toInt.natAbs = 1 := by
        by_contra hne
        have hgt : 1 < s.toInt.natAbs := by omega
        have := Nat.div_lt_self hxpos hgt
        rw [hqa] at habs
        have hdiv : (x.toInt.natAbs).div (s.toInt.natAbs)
            = x.toInt.natAbs / s.toInt.natAbs := rfl
        omega
      have hcases : s.toInt = 1 ∨ s.toInt = -1 := by omega
      rcases hcases with h1 | h1
      · rw [h1, Int.tdiv_one] at hbig hqa
        omega
      · exact hcorner ⟨by omega, h1⟩

/-- A type narrower than `int` has at most half as many values as `int`. -/
theorem two_pow_narrow (hn : w < intBits) : 2 * 2 ^ w ≤ 2 ^ intBits := by
  have h : 2 ^ (w + 1) ≤ 2 ^ intBits := Nat.pow_le_pow_right (by decide) hn
  rw [Nat.pow_succ] at h
  omega

/-- The values of a type lie within `± 2 ^ w`, whatever its signedness. -/
theorem toInt_abs_lt (x : MachInt sgn w) :
    -((2 ^ w : Nat) : Int) < x.toInt ∧ x.toInt < ((2 ^ w : Nat) : Int) := by
  have hpos : 0 < 2 ^ w := Nat.two_pow_pos w
  cases sgn
  · have := toInt_range_unsigned x
    omega
  · have := toInt_range_signed x
    omega

/-- The quotient by a divisor other than zero is a value of the promoted type, but for
the least value of `int` or of a wider signed type divided by `-1`. -/
theorem tdiv_promoted_iff (x s : MachInt sgn w) (hs0 : s.toInt ≠ 0) :
    (ofInt (Int.tdiv x.toInt s.toInt) : Promoted sgn w).toInt = Int.tdiv x.toInt s.toInt ↔
      ¬ (intBits ≤ w ∧ 2 * x.toInt = -((2 ^ w : Nat) : Int) ∧ s.toInt = -1) := by
  by_cases hn : w < intBits
  · have hps : promSigned sgn w = true := if_pos hn
    have hpw : promWidth w = intBits := if_pos hn
    rw [toInt_ofInt_iff, hps, hpw]
    have habs := Int.natAbs_tdiv x.toInt s.toInt
    have hle : (x.toInt.natAbs).div (s.toInt.natAbs) ≤ x.toInt.natAbs := Nat.div_le_self _ _
    have hx := toInt_abs_lt x
    have hnar := two_pow_narrow hn
    constructor
    · intro _ ⟨hwide, _⟩
      omega
    · intro _
      refine ⟨fun _ => by omega, fun h => by cases h⟩
  · have hps : promSigned sgn w = sgn := if_neg hn
    have hpw : promWidth w = w := if_neg hn
    rw [toInt_ofInt_iff, hps, hpw, ← toInt_ofInt_iff, tdiv_value_iff x s hs0]
    constructor
    · intro h ⟨_, h2⟩
      exact h h2
    · intro h h2
      exact h ⟨by omega, h2⟩

/-- When `x / s` has a value: the divisor is not zero, and the quotient is not that of
the least value of `int` or of a wider signed type by `-1`. -/
theorem div_isSome_iff (x s : MachInt sgn w) :
    (div x s).isSome ↔
      s.toInt ≠ 0 ∧
        ¬ (intBits ≤ w ∧ 2 * x.toInt = -((2 ^ w : Nat) : Int) ∧ s.toInt = -1) := by
  by_cases hs : s.bits = 0
  · rw [div_by_zero x s hs]
    have : s.toInt = 0 := (toInt_eq_zero_iff s).mpr hs
    simp [this]
  · have hs0 : s.toInt ≠ 0 := fun h => hs ((toInt_eq_zero_iff s).mp h)
    have hq : (div x s).isSome ↔
        (ofInt (Int.tdiv x.toInt s.toInt) : Promoted sgn w).toInt
          = Int.tdiv x.toInt s.toInt := by
      simp only [div, if_neg hs]
      split <;> simp [*]
    rw [hq, tdiv_promoted_iff x s hs0]
    constructor
    · intro h
      exact ⟨hs0, h⟩
    · intro h
      exact h.2

/-- The value `x / s` has, when it has one: the quotient truncated toward zero, converted
to the type of the operands; the conversion changes nothing but for the least value of a
signed type divided by `-1`. -/
theorem div_eq_some {x s q : MachInt sgn w} (h : div x s = some q) :
    q = ofInt (Int.tdiv x.toInt s.toInt) ∧
      (¬ (2 * x.toInt = -((2 ^ w : Nat) : Int) ∧ s.toInt = -1) →
        q.toInt = Int.tdiv x.toInt s.toInt) := by
  have hs : s.bits ≠ 0 := by
    intro hz
    rw [div_by_zero x s hz] at h
    cases h
  have hs0 : s.toInt ≠ 0 := fun h0 => hs ((toInt_eq_zero_iff s).mp h0)
  have hq : q = ofInt (Int.tdiv x.toInt s.toInt) := by
    unfold div at h
    rw [if_neg hs] at h
    simp only at h
    split at h
    · exact (Option.some.inj h).symm
    · cases h
  refine ⟨hq, ?_⟩
  intro hc
  rw [hq]
  exact (tdiv_value_iff x s hs0).mpr hc

end MachInt

/-! ## The counters -/

theorem run_cons (w : Nat) (s : Counters) (e : Event) (es : List Event) :
    run w s (e :: es) = run w (e.apply w s) es := rfl

/-- After any sequence of events the counters are, modulo `2 ^ w`: `instanceCount` the
start value plus the declared constructions minus the destructions, `totalCreated` the
start value plus the declared constructions.  Copies enter neither. -/
theorem run_counters (w : Nat) (es : List Event) :
    ∀ s : Counters, s.instanceCount < 2 ^ w → s.totalCreated < 2 ^ w →
      run w s es =
        ⟨(s.instanceCount + countDeclared es + countDestroyed es * (2 ^ w - 1)) % 2 ^ w,
          (s.totalCreated + countDeclared es) % 2 ^ w⟩ := by
  have hm : 0 < 2 ^ w := Nat.two_pow_pos w
  induction es with
  | nil =>
    intro s h1 h2
    simp only [run, List.foldl_nil, countDeclared, countDestroyed, Nat.zero_mul, Nat.add_zero,
      Nat.mod_eq_of_lt h1, Nat.mod_eq_of_lt h2]
  | cons e es ih =>
    intro s h1 h2
    rw [run_cons]
    cases e with
    | destroy =>
      rw [show Event.apply w s .destroy = onDestroy w s from rfl,
        ih (onDestroy w s) (Nat.mod_lt _ hm) h2]
      simp only [onDestroy, countDeclared, countDestroyed]
      congr 1
      rw [Nat.add_assoc ((s.instanceCount + (2 ^ w - 1)) % 2 ^ w), Nat.mod_add_mod]
      congr 1
      rw [Nat.add_mul, Nat.one_mul]
      generalize countDestroyed es * (2 ^ w - 1) = k
      omega
    | construct c =>
      cases c with
      | copy =>
        rw [show Event.apply w s (.construct .copy) = onConstruct w .copy s from rfl,
          ih (onConstruct w .copy s) h1 h2]
        simp only [onConstruct, countDeclared, countDestroyed]
      | default =>
        rw [show Event.apply w s (.construct .default) = onConstruct w .default s from rfl,
          ih (onConstruct w .default s) (Nat.mod_lt _ hm) (Nat.mod_lt _ hm)]
        simp only [onConstruct, countDeclared, countDestroyed]
        congr 1
        · rw [Nat.add_assoc ((s.instanceCount + 1) % 2 ^ w), Nat.mod_add_mod]
          congr 1
          omega
        · rw [Nat.mod_add_mod]
          congr 1
          omega
      | fill =>
        rw [show Event.apply w s (.construct .fill) = onConstruct w .fill s from rfl,
          ih (onConstruct w .fill s) (Nat.mod_lt _ hm) (Nat.mod_lt _ hm)]
        simp only [onConstruct, countDeclared, countDestroyed]
        congr 1
        · rw [Nat.add_assoc ((s.instanceCount + 1) % 2 ^ w), Nat.mod_add_mod]
          congr 1
          omega
        · rw [Nat.mod_add_mod]
          congr 1
          omega
      | initList =>
        rw [show Event.apply w s (.construct .initList) = onConstruct w .initList s from rfl,
          ih (onConstruct w .initList s) (Nat.mod_lt _ hm) (Nat.mod_lt _ hm)]
        simp only [onConstruct, countDeclared, countDestroyed]
        congr 1
        · rw [Nat.add_assoc ((s.instanceCount + 1) % 2 ^ w), Nat.mod_add_mod]
          congr 1
          omega
        · rw [Nat.mod_add_mod]
          congr 1
          omega

/-- When every destruction is matched by a declared construction (no object was made by
the implicit copy constructor), `instanceCount` is back at its start value and
`totalCreated` has advanced by the number of constructions. -/
theorem run_balanced (w : Nat) (s : Counters) (es : List Event)
    (h1 : s.instanceCount < 2 ^ w) (h2 : s.totalCreated < 2 ^ w)
    (hbal : countDestroyed es = countDeclared es) :
    (run w s es).instanceCount = s.instanceCount ∧
      (run w s es).totalCreated = (s.totalCreated + countDeclared es) % 2 ^ w := by
  have hm : 0 < 2 ^ w := Nat.two_pow_pos w
  rw [run_counters w es s h1 h2, hbal]
  refine ⟨?_, rfl⟩
  show (s.instanceCount + countDeclared es + countDeclared es * (2 ^ w - 1)) % 2 ^ w
    = s.instanceCount
  have e : s.instanceCount + countDeclared es + countDeclared es * (2 ^ w - 1)
      = s.instanceCount + countDeclared es * 2 ^ w := by
    have h : countDeclared es * 2 ^ w = countDeclared es * (2 ^ w - 1) + countDeclared es := by
      conv_lhs => rw [show 2 ^ w = (2 ^ w - 1) + 1 by omega]
      rw [Nat.mul_add, Nat.mul_one]
    omega
  rw [e, Nat.add_mul_mod_self_right, Nat.mod_eq_of_lt h1]

/-! ## Mixed and variadic `concat`, `weighted_sum` -/

section Further

theorem concatMixed_data {T1 T2 R : Type} [CppNum R] {N1 N2 : Nat} (conv1 : T1 → R)
    (conv2 : T2 → R) (v1 : MathematicalVector T1 N1) (v2 : MathematicalVector T2 N2) :
    ∃ c, concatMixed conv1 conv2 v1 v2 = .ok c ∧
      c.data = v1.data.map conv1 ++ v2.data.map conv2 := by
  obtain ⟨r1, hr1, hd1⟩ := forLoop_store
    (fun i result => (v1.read i).bind (fun x => result.write i (conv1 x)))
    (fun i => ((v1.data[i]?).map conv1).getD CppNum.zero) 0 0 N1 (ctorDefault (N1 + N2))
    (Nat.zero_le _) (by omega)
    (by
      intro i r _ hi
      show (v1.read i).bind (fun x => r.write i (conv1 x)) = _
      obtain ⟨x, hx, hread⟩ := read_of_lt v1 hi
      rw [hread, Outcome.bind_ok, Nat.zero_add]
      show r.write i (conv1 x) = r.write i (((v1.data[i]?).map conv1).getD CppNum.zero)
      rw [hx]
      rfl)
  obtain ⟨r2, hr2, hd2⟩ := forLoop_store
    (fun i result => (v2.read i).bind (fun x => result.write (N1 + i) (conv2 x)))
    (fun i => ((v2.data[i]?).map conv2).getD CppNum.zero) N1 0 N2 r1
    (Nat.zero_le _) (Nat.le_refl _)
    (by
      intro i r _ hi
      show (v2.read i).bind (fun x => r.write (N1 + i) (conv2 x)) = _
      obtain ⟨x, hx, hread⟩ := read_of_lt v2 hi
      rw [hread, Outcome.bind_ok]
      show r.write (N1 + i) (conv2 x)
        = r.write (N1 + i) (((v2.data[i]?).map conv2).getD CppNum.zero)
      rw [hx]
      rfl)
  refine ⟨r2, ?_, ?_⟩
  · unfold concatMixed
    rw [hr1, Outcome.bind_ok]
    exact hr2
  · apply List.ext_getElem?
    intro j
    rw [hd2 j, hd1 j, ctorDefault_getElem?]
    have hlen1 : (v1.data.map conv1).length = N1 := by rw [List.length_map, v1.size_eq]
    by_cases h1 : j < N1
    · have hc : ¬ (N1 + 0 ≤ j ∧ j < N1 + N2) := by omega
      have hc1 : 0 + 0 ≤ j ∧ j < 0 + N1 := by omega
      obtain ⟨x, hx⟩ := getElem?_lt v1 h1
      rw [if_neg hc, if_pos hc1, Nat.sub_zero,
        List.getElem?_append_left (by rw [hlen1]; exact h1), List.getElem?_map, hx]
      rfl
    · rw [List.getElem?_append_right (by rw [hlen1]; omega), hlen1, List.getElem?_map]
      by_cases h2 : j < N1 + N2
      · have hc : N1 + 0 ≤ j ∧ j < N1 + N2 := by omega
        obtain ⟨x, hx⟩ := getElem?_lt v2 (show j - N1 < N2 by omega)
        rw [if_pos hc, hx]
        rfl
      · have hc : ¬ (N1 + 0 ≤ j ∧ j < N1 + N2) := by omega
        have hc1 : ¬ (0 + 0 ≤ j ∧ j < 0 + N1) := by omega
        rw [if_neg hc, if_neg hc1, if_neg h2, getElem?_ge v2 (show N2 ≤ j - N1 by omega)]
        rfl

theorem concatVariadic_data {T : Type} [CppNum T] (rest : List (AnyVector T)) :
    ∀ v1 v2 : AnyVector T, ∃ r, concatVariadic v1 v2 rest = .ok r ∧
      r.len = v1.len + v2.len + (rest.map (fun v => v.len)).sum ∧
      r.vec.data = v1.vec.data ++ v2.vec.data ++ (rest.map (fun v => v.vec.data)).flatten := by
  induction rest with
  | nil =>
    intro v1 v2
    obtain ⟨c, hc, hd⟩ := concat_data v1.vec v2.vec
    refine ⟨⟨v1.len + v2.len, c⟩, ?_, ?_, ?_⟩
    · simp only [concatVariadic, hc, Outcome.bind_ok]
    · simp
    · simp [hd]
  | cons v3 rest ih =>
    intro v1 v2
    obtain ⟨c, hc, hd⟩ := concat_data v1.vec v2.vec
    obtain ⟨r, hr, hlen, hdata⟩ := ih ⟨v1.len + v2.len, c⟩ v3
    refine ⟨r, ?_, ?_, ?_⟩
    · simp only [concatVariadic, hc, Outcome.bind_ok]
      exact hr
    · rw [hlen]
      simp only [List.map_cons, List.sum_cons]
      omega
    · rw [hdata, hd]
      simp only [List.map_cons, List.flatten_cons, List.append_assoc]

theorem opAdd_getElem? {T U R : Type} [CppNum R] {N : Nat} (plus : T → U → R)
    (a : MathematicalVector T N) (b : MathematicalVector U N) :
    ∃ r, a.opAdd plus b = .ok r ∧
      ∀ (j : Nat) (x : T) (y : U), a.data[j]? = some x → b.data[j]? = some y →
        r.data[j]? = some (plus x y) := by
  obtain ⟨r, hr, hdata⟩ := forLoop_store
    (fun i result =>
      (a.read i).bind (fun x => (b.read i).bind (fun y => result.write i (plus x y))))
    (fun i => match a.data[i]?, b.data[i]? with
      | some x, some y => plus x y
      | _, _ => CppNum.zero) 0 0 N (ctorDefault N)
    (Nat.zero_le _) (by omega)
    (by
      intro i r _ hi
      show (a.read i).bind (fun x => (b.read i).bind (fun y => r.write i (plus x y))) = _
      obtain ⟨x, hx, hrx⟩ := read_of_lt a hi
      obtain ⟨y, hy, hry⟩ := read_of_lt b hi
      rw [hrx, Outcome.bind_ok, hry, Outcome.bind_ok, Nat.zero_add]
      simp only [hx, hy])
  refine ⟨r, hr, ?_⟩
  intro j x y hx hy
  have hj : j < N := by
    by_contra hge
    rw [getElem?_ge a (by omega)] at hx
    cases hx
  have hc : 0 + 0 ≤ j ∧ j < 0 + N := by omega
  rw [hdata j, if_pos hc, Nat.sub_zero]
  simp only [hx, hy]

theorem weighted_sum_getElem? {T S U P1 P2 R : Type} [CppNum R] {N : Nat}
    (times1 : S → T → P1) (times2 : S → U → P2) (plus : P1 → P2 → R)
    (a : MathematicalVector T N) (b : MathematicalVector U N) (w1 w2 : S) :
    ∃ r, a.weighted_sum times1 times2 plus w1 b w2 = .ok r ∧
      ∀ (j : Nat) (x : T) (y : U), a.data[j]? = some x → b.data[j]? = some y →
        r.data[j]? = some (plus (times1 w1 x) (times2 w2 y)) := by
  obtain ⟨r, hr, hdata⟩ := forLoop_store
    (fun i result =>
      (a.read i).bind (fun x => (b.read i).bind (fun y =>
        result.write i (plus (times1 w1 x) (times2 w2 y)))))
    (fun i => match a.data[i]?, b.data[i]? with
      | some x, some y => plus (times1 w1 x) (times2 w2 y)
      | _, _ => CppNum.zero)
    0 0 N (ctorDefault N) (Nat.zero_le _) (by omega)
    (by
      intro i r _ hi
      show (a.read i).bind (fun x => (b.read i).bind (fun y =>
        r.write i (plus (times1 w1 x) (times2 w2 y)))) = _
      obtain ⟨x, hx, hrx⟩ := read_of_lt a hi
      obtain ⟨y, hy, hry⟩ := read_of_lt b hi
      rw [hrx, Outcome.bind_ok, hry, Outcome.bind_ok, Nat.zero_add]
      simp only [hx, hy])
  refine ⟨r, hr, ?_⟩
  intro j x y hx hy
  have hj : j < N := by
    by_contra hge
    rw [getElem?_ge a (by omega)] at hx
    cases hx
  have hc : 0 + 0 ≤ j ∧ j < 0 + N := by omega
  rw [hdata j, if_pos hc, Nat.sub_zero]
  simp only [hx, hy]

end Further

namespace MachInt

variable {sgn : Bool} {w : Nat}

theorem ofInt_one_bits : (ofInt 1 : MachInt sgn w).bits = 1 % 2 ^ w := by
  have h := @ofInt_bits sgn w 1
  have e : (1 : Int) % ((2 ^ w : Nat) : Int) = ((1 % 2 ^ w : Nat) : Int) := by
    norm_cast
  rw [e] at h
  exact_mod_cast h

/-- The weight 1 leaves a value as it is. -/
theorem ofInt_one_mul (x : MachInt sgn w) : mul (ofInt 1) x = x := by
  apply ext_bits
  show ((ofInt 1 : MachInt sgn w).bits * x.bits) % 2 ^ w = x.bits
  rw [ofInt_one_bits, Nat.mod_mul_mod, Nat.one_mul, Nat.mod_eq_of_lt x.isLt]

/-- A pattern is the value it stands for, modulo `2 ^ w`. -/
theorem toInt_emod (x : MachInt sgn w) :
    x.toInt % ((2 ^ w : Nat) : Int) = (x.bits : Int) := by
  have hx := x.isLt
  have hb : ((x.bits : Nat) : Int) % ((2 ^ w : Nat) : Int) = (x.bits : Int) :=
    Int.emod_eq_of_lt (by omega) (by omega)
  cases sgn
  · rw [toInt_unsigned, hb]
  · rw [toInt_signed]
    split
    · rw [← Int.add_emod_self, Int.sub_add_cancel, hb]
    · exact hb

/-- The element `w1 * x + w2 * y` of a weighted sum is that integer, modulo `2 ^ w`. -/
theorem add_mul_toInt (w1 x w2 y : MachInt sgn w) :
    (add (mul w1 x) (mul w2 y)).toInt % ((2 ^ w : Nat) : Int) =
      (w1.toInt * x.toInt + w2.toInt * y.toInt) % ((2 ^ w : Nat) : Int) := by
  rw [toInt_emod, Int.add_emod, Int.mul_emod w1.toInt, Int.mul_emod w2.toInt,
    toInt_emod, toInt_emod, toInt_emod, toInt_emod]
  show ((((w1.bits * x.bits) % 2 ^ w + (w2.bits * y.bits) % 2 ^ w) % 2 ^ w : Nat) : Int) = _
  push_cast
  rfl

/-- The sum of two products is the pattern of the integer it stands for. -/
theorem add_mul_eq_ofInt (a b c d : MachInt sgn w) :
    add (mul a b) (mul c d) = ofInt (a.toInt * b.toInt + c.toInt * d.toInt) := by
  apply ext_bits
  have h1 := toInt_emod (add (mul a b) (mul c d))
  have h2 := add_mul_toInt a b c d
  have h3 := @ofInt_bits sgn w (a.toInt * b.toInt + c.toInt * d.toInt)
  have h : ((add (mul a b) (mul c d)).bits : Int)
      = ((ofInt (a.toInt * b.toInt + c.toInt * d.toInt) : MachInt sgn w).bits : Int) := by
    rw [← h1, h2, h3]
  exact_mod_cast h

/-- A value is the pattern of the integer it stands for. -/
theorem ofInt_toInt (x : MachInt sgn w) : (ofInt x.toInt : MachInt sgn w) = x := by
  apply ext_bits
  have h : (((ofInt x.toInt : MachInt sgn w).bits : Nat) : Int) = (x.bits : Int) := by
    rw [ofInt_bits, toInt_emod]
  exact_mod_cast h

/-- Promotion keeps the value. -/
theorem promote_toInt (x : MachInt sgn w) : (promote x).toInt = x.toInt := by
  unfold promote
  by_cases hn : w < intBits
  · have hps : promSigned sgn w = true := if_pos hn
    have hpw : promWidth w = intBits := if_pos hn
    rw [toInt_ofInt_iff, hps, hpw]
    have hx := toInt_abs_lt x
    have hnar := two_pow_narrow hn
    refine ⟨fun _ => by omega, fun h => by cases h⟩
  · have hps : promSigned sgn w = sgn := if_neg hn
    have hpw : promWidth w = w := if_neg hn
    rw [toInt_ofInt_iff, hps, hpw, ← toInt_ofInt_iff, ofInt_toInt]

/-- A promoted type is its own promotion: `+` between two values of the result type has
that type again, which is why the `+` of `w1 * x + w2 * y` is `add` on `Promoted`. -/
theorem promoted_idem (sgn : Bool) (w : Nat) :
    promWidth (promWidth w) = promWidth w ∧
      promSigned (promSigned sgn w) (promWidth w) = promSigned sgn w := by
  unfold promWidth promSigned
  by_cases hn : w < intBits
  · simp [hn]
  · simp [hn]

theorem plus_comm (x y : MachInt sgn w) : plus x y = plus y x :=
  add_comm (promote x) (promote y)

/-- The element `w1 * x + w2 * y` of a weighted sum of integer vectors: the pattern of
that integer in the promoted type. -/
theorem weighted_elem (w1 x w2 y : MachInt sgn w) :
    add (times w1 x) (times w2 y)
      = (ofInt (w1.toInt * x.toInt + w2.toInt * y.toInt) : Promoted sgn w) := by
  unfold times
  rw [add_mul_eq_ofInt, promote_toInt, promote_toInt, promote_toInt, promote_toInt]

theorem add_toInt (a b : MachInt sgn w) :
    (add a b).toInt % ((2 ^ w : Nat) : Int) = (a.toInt + b.toInt) % ((2 ^ w : Nat) : Int) := by
  rw [toInt_emod, Int.add_emod, toInt_emod, toInt_emod]
  show (((a.bits + b.bits) % 2 ^ w : Nat) : Int) = _
  push_cast
  rfl

theorem width_le_promWidth (w : Nat) : w ≤ promWidth w := by
  unfold promWidth
  split <;> omega

/-- The sum computed in the promoted type and stored into the type of the operands is
the sum wrapped at their width: what the scalar operator `+` puts into `result[i]`. -/
theorem add_eq_store_plus (x y : MachInt sgn w) :
    add x y = (ofInt (plus x y).toInt : MachInt sgn w) := by
  apply ext_bits
  have hdvd : (((2 ^ w : Nat) : Int)) ∣ (((2 ^ promWidth w : Nat) : Int)) :=
    Int.natCast_dvd_natCast.mpr (Nat.pow_dvd_pow 2 (width_le_promWidth w))
  have h1 := @ofInt_bits sgn w (plus x y).toInt
  have h2 : (plus x y).toInt % ((2 ^ w : Nat) : Int)
      = (x.toInt + y.toInt) % ((2 ^ w : Nat) : Int) := by
    rw [← Int.emod_emod_of_dvd _ hdvd]
    unfold plus
    rw [add_toInt, promote_toInt, promote_toInt, Int.emod_emod_of_dvd _ hdvd]
  have h3 : (x.toInt + y.toInt) % ((2 ^ w : Nat) : Int)
      = (((x.bits + y.bits) % 2 ^ w : Nat) : Int) := by
    rw [Int.add_emod, toInt_emod, toInt_emod]
    push_cast
    rfl
  have h : (((add x y).bits : Nat) : Int)
      = (((ofInt (plus x y).toInt : MachInt sgn w).bits : Nat) : Int) := by
    rw [h1, h2, h3]
    rfl
  exact_mod_cast h

theorem mul_toInt (a b : MachInt sgn w) :
    (mul a b).toInt % ((2 ^ w : Nat) : Int) = (a.toInt * b.toInt) % ((2 ^ w : Nat) : Int) := by
  rw [toInt_emod, Int.mul_emod, toInt_emod, toInt_emod]
  show (((a.bits * b.bits) % 2 ^ w : Nat) : Int) = _
  push_cast
  rfl

/-- The product computed in the promoted type and stored into the type of the operands
is the product wrapped at their width: what the scalar operator `*` puts into
`result[i]`. -/
theorem mul_eq_store_times (x y : MachInt sgn w) :
    mul x y = (ofInt (times x y).toInt : MachInt sgn w) := by
  apply ext_bits
  have hdvd : (((2 ^ w : Nat) : Int)) ∣ (((2 ^ promWidth w : Nat) : Int)) :=
    Int.natCast_dvd_natCast.mpr (Nat.pow_dvd_pow 2 (width_le_promWidth w))
  have h1 := @ofInt_bits sgn w (times x y).toInt
  have h2 : (times x y).toInt % ((2 ^ w : Nat) : Int)
      = (x.toInt * y.toInt) % ((2 ^ w : Nat) : Int) := by
    rw [← Int.emod_emod_of_dvd _ hdvd]
    unfold times
    rw [mul_toInt, promote_toInt, promote_toInt, Int.emod_emod_of_dvd _ hdvd]
  have h3 : (x.toInt * y.toInt) % ((2 ^ w : Nat) : Int)
      = (((x.bits * y.bits) % 2 ^ w : Nat) : Int) := by
    rw [Int.mul_emod, toInt_emod, toInt_emod]
    push_cast
    rfl
  have h : (((mul x y).bits : Nat) : Int)
      = (((ofInt (times x y).toInt : MachInt sgn w).bits : Nat) : Int) := by
    rw [h1, h2, h3]
    rfl
  exact_mod_cast h

/-- With a weight of value 1 the product is the promoted operand. -/
theorem times_one (one x : MachInt sgn w) (h : one.toInt = 1) : times one x = promote x := by
  unfold times
  have e : promote one = (ofInt 1 : Promoted sgn w) := by
    unfold promote
    rw [h]
  rw [e, ofInt_one_mul]

end MachInt

/-! ## The menu loop -/

section Menu

variable {T : Type} [CppNum T] {N : Nat}

theorem computeAndPrint_effects (op : ScalarOp) (v1 : MathematicalVector T N) (s : T)
    (eff : Effect T N) (h : eff ∈ (computeAndPrint op v1 s).effects) :
    eff = .call op s ∨ ∃ r, eff = .print (.result r) ∧ op.apply v1 s = .ok r := by
  unfold computeAndPrint at h
  split at h
  · rename_i r hr
    simp only [List.mem_cons, List.mem_singleton, List.not_mem_nil, or_false] at h
    rcases h with h | h
    · exact Or.inl h
    · exact Or.inr ⟨r, h, hr⟩
  · simp only [List.mem_singleton] at h
    exact Or.inl h
  · simp only [List.mem_singleton] at h
    exact Or.inl h

theorem computeAndPrint_next (op : ScalarOp) (v1 v : MathematicalVector T N) (s : T)
    (b : Bool) (h : (computeAndPrint op v1 s).next = .ok (v, b)) : v = v1 := by
  unfold computeAndPrint at h
  split at h
  · simp only [Outcome.ok.injEq, Prod.mk.injEq] at h
    exact h.1.symm
  · cases h
  · cases h

/-- One pass hands the stored vector on as it got it. -/
theorem menuPass_next (isZero : T → Bool) (v1 v : MathematicalVector T N) (e : Entry T)
    (b : Bool) (h : (menuPass isZero v1 e).next = .ok (v, b)) : v = v1 := by
  cases e with
  | unreadable =>
    simp only [menuPass, Outcome.ok.injEq, Prod.mk.injEq] at h
    exact h.1.symm
  | choice op s =>
    simp only [menuPass] at h
    split_ifs at h
    all_goals first
      | exact computeAndPrint_next _ v1 v s b h
      | (simp only [Outcome.ok.injEq, Prod.mk.injEq] at h; exact h.1.symm)

/-- What one pass can do: call an operator of choice 1 to 4 on `v1`, the division only
with a scalar that passed the test; write the result of that call; write `v1`; write
one of the fixed lines. -/
theorem menuPass_effects (isZero : T → Bool) (v1 : MathematicalVector T N) (e : Entry T)
    (eff : Effect T N) (h : eff ∈ (menuPass isZero v1 e).effects) :
    (∀ s, eff = .call .div s → isZero s = false) ∧
    (∀ r, eff = .print (.result r) → ∃ op s, ScalarOp.apply op v1 s = .ok r) ∧
    (∀ v, eff = .print (.yourVector v) → v = v1) := by
  cases e with
  | unreadable =>
    simp only [menuPass, List.mem_singleton] at h
    subst h
    refine ⟨?_, ?_, ?_⟩ <;> intro _ hh <;> cases hh
  | choice op s =>
    simp only [menuPass] at h
    split_ifs at h with h6 h1 h2 h3 h4 hz h5
    · simp only [List.mem_singleton] at h
      subst h
      refine ⟨?_, ?_, ?_⟩ <;> intro _ hh <;> cases hh
    · rcases computeAndPrint_effects _ v1 s eff h with hc | ⟨r, hp, hr⟩
      · subst hc
        refine ⟨?_, ?_, ?_⟩ <;> intro _ hh <;> cases hh
      · subst hp
        refine ⟨?_, ?_, ?_⟩
        · intro _ hh; cases hh
        · intro r1 hh
          cases hh
          exact ⟨_, s, hr⟩
        · intro _ hh; cases hh
    · rcases computeAndPrint_effects _ v1 s eff h with hc | ⟨r, hp, hr⟩
      · subst hc
        refine ⟨?_, ?_, ?_⟩ <;> intro _ hh <;> cases hh
      · subst hp
        refine ⟨?_, ?_, ?_⟩
        · intro _ hh; cases hh
        · intro r1 hh
          cases hh
          exact ⟨_, s, hr⟩
        · intro _ hh; cases hh
    · rcases computeAndPrint_effects _ v1 s eff h with hc | ⟨r, hp, hr⟩
      · subst hc
        refine ⟨?_, ?_, ?_⟩ <;> intro _ hh <;> cases hh
      · subst hp
        refine ⟨?_, ?_, ?_⟩
        · intro _ hh; cases hh
        · intro r1 hh
          cases hh
          exact ⟨_, s, hr⟩
        · intro _ hh; cases hh
    · simp only [List.mem_singleton] at h
      subst h
      refine ⟨?_, ?_, ?_⟩ <;> intro _ hh <;> cases hh
    · rcases computeAndPrint_effects _ v1 s eff h with hc | ⟨r, hp, hr⟩
      · subst hc
        refine ⟨?_, ?_, ?_⟩
        · intro s1 hh
          cases hh
          simpa using hz
        · intro _ hh; cases hh
        · intro _ hh; cases hh
      · subst hp
        refine ⟨?_, ?_, ?_⟩
        · intro _ hh; cases hh
        · intro r1 hh
          cases hh
          exact ⟨_, s, hr⟩
        · intro _ hh; cases hh
    · simp only [List.mem_singleton] at h
      subst h
      refine ⟨?_, ?_, ?_⟩
      · intro _ hh; cases hh
      · intro _ hh; cases hh
      · intro v hh
        cases hh
        rfl
    · simp only [List.mem_singleton] at h
      subst h
      refine ⟨?_, ?_, ?_⟩ <;> intro _ hh <;> cases hh

/-- Every effect of a run is an effect of one pass on the vector the run started with,
and the vector the run ends with is that vector. -/
theorem menuLoop_passes (isZero : T → Bool) (es : List (Entry T)) :
    ∀ v1 : MathematicalVector T N,
      (∀ eff, eff ∈ (menuLoop isZero es v1).1 →
        ∃ e, e ∈ es ∧ eff ∈ (menuPass isZero v1 e).effects) ∧
      (∀ v, (menuLoop isZero es v1).2 = .ok v → v = v1) := by
  induction es with
  | nil =>
    intro v1
    constructor
    · intro eff h
      simp only [menuLoop, List.not_mem_nil] at h
    · intro v h
      simp only [menuLoop, Outcome.ok.injEq] at h
      exact h.symm
  | cons e es ih =>
    intro v1
    unfold menuLoop
    split
    · rename_i v hnext
      have hv : v = v1 := menuPass_next isZero v1 v e true hnext
      subst hv
      obtain ⟨ih1, ih2⟩ := ih v
      constructor
      · intro eff h
        simp only [List.mem_append] at h
        rcases h with h | h
        · exact ⟨e, List.mem_cons_self _ _, h⟩
        · obtain ⟨e1, he1, heff⟩ := ih1 eff h
          exact ⟨e1, List.mem_cons_of_mem _ he1, heff⟩
      · intro v2 h
        exact ih2 v2 h
    · rename_i v hnext
      have hv : v = v1 := menuPass_next isZero v1 v e false hnext
      constructor
      · intro eff h
        exact ⟨e, List.mem_cons_self _ _, h⟩
      · intro v2 h
        simp only [Outcome.ok.injEq] at h
        rw [← h, hv]
    · constructor
      · intro eff h
        exact ⟨e, List.mem_cons_self _ _, h⟩
      · intro v2 h
        cases h
    · constructor
      · intro eff h
        exact ⟨e, List.mem_cons_self _ _, h⟩
      · intro v2 h
        cases h

end Menu

/-! ## The claims -/

/-- C1 (defect in the code).  `slice<1>(start)` on the `int` vector `[1, 2, 3, 4, 5]` with
`start = SIZE_MAX` on a 64-bit `std::size_t`: the mathematical sum `start + 1 = 2 ^ 64`
exceeds `N = 5`, yet no `std::out_of_range` is thrown, because the test is made on the
wrapped sum `0`; the loop then reads `data[SIZE_MAX]`, outside the array. -/
theorem slice_size_max_not_rejected :
    (2 ^ 64 - 1) + 1 > 5 ∧
    (2 ^ 64 - 1 + 1) % 2 ^ 64 = 0 ∧
    (intVector [1, 2, 3, 4, 5]).slice 64 1 (2 ^ 64 - 1) ≠ .thrown .out_of_range ∧
    (intVector [1, 2, 3, 4, 5]).slice 64 1 (2 ^ 64 - 1) = .undefined ∧
    (intVector [1, 2, 3, 4, 5]).read (2 ^ 64 - 1) = .undefined := by
  decide

/-- C2.  The initializer-list constructor returns, whatever the array held before: element
`i` of the vector built from `xs` is `xs[i]` for `i < min N (len xs)` and `T{}` for
`len xs ≤ i < N`; and every input that agrees with `xs` on the first `N` values builds
the same vector, so values at positions `≥ N` have no effect. -/
theorem ctorInitList_spec {T : Type} [CppNum T] (N : Nat) (xs : List T) :
    ∃ r : MathematicalVector T N,
      (∀ (raw : MathematicalVector T N) (ys : List T),
          ys.take N = xs.take N → ctorInitList raw ys = .ok r) ∧
      (∀ i, i < min N xs.length → r.data[i]? = xs[i]?) ∧
      (∀ i, xs.length ≤ i → i < N → r.data[i]? = some CppNum.zero) := by
  obtain ⟨r, _, hr⟩ := ctorInitList_getElem? (ctorDefault N : MathematicalVector T N) xs
  refine ⟨r, ?_, ?_, ?_⟩
  · intro raw ys htake
    obtain ⟨r1, hrun1, hr1⟩ := ctorInitList_getElem? raw ys
    rw [hrun1]
    congr 1
    apply ext_getElem?
    intro i hi
    have hx : (xs.take N)[i]? = xs[i]? := by rw [List.getElem?_take, if_pos hi]
    have hy : (ys.take N)[i]? = ys[i]? := by rw [List.getElem?_take, if_pos hi]
    rw [hr1 i hi, hr i hi, ← hx, ← hy, htake]
  · intro i hi
    rw [hr i (by omega), List.getElem?_eq_getElem (show i < xs.length by omega)]
    rfl
  · intro i hlen hi
    rw [hr i hi, List.getElem?_eq_none hlen]
    rfl

/-- C3.  Slicing a concatenation gives the operands back: `concat(a, b)` returns a vector
`c`, `c.slice<N1>(0)` returns `a` and `c.slice<N2>(N1)` returns `b`.  `0 < N1` and
`0 < N2` are the `static_assert` of `slice`; `N1 + N2 < 2 ^ w` says that the length of
`c` is a value of `std::size_t`. -/
theorem concat_slice_recovers {T : Type} [CppNum T] {N1 N2 : Nat} (w : Nat)
    (a : MathematicalVector T N1) (b : MathematicalVector T N2)
    (_h1 : 0 < N1) (_h2 : 0 < N2) (hw : N1 + N2 < 2 ^ w) :
    ∃ c, concat a b = .ok c ∧ c.slice w N1 0 = .ok a ∧ c.slice w N2 N1 = .ok b := by
  obtain ⟨c, hc, hdata⟩ := concat_data a b
  refine ⟨c, hc, ?_, ?_⟩
  · obtain ⟨r, hr, hel⟩ := slice_in_range w N1 c 0 hw (by omega)
    rw [hr]
    congr 1
    apply ext_getElem?
    intro i hi
    rw [hel i hi, hdata, Nat.zero_add,
      List.getElem?_append_left (by rw [a.size_eq]; exact hi)]
  · obtain ⟨r, hr, hel⟩ := slice_in_range w N2 c N1 hw (Nat.le_refl _)
    rw [hr]
    congr 1
    apply ext_getElem?
    intro i hi
    rw [hel i hi, hdata,
      List.getElem?_append_right (by rw [a.size_eq]; omega), a.size_eq,
      Nat.add_sub_cancel_left]

/-- C3 at `int` vectors `[1, 2]` and `[3, 4, 5]` with a 64-bit `std::size_t`. -/
theorem concat_slice_recovers_witness :
    ∃ c, concat (intVector [1, 2]) (intVector [3, 4, 5]) = .ok c ∧
      c.slice 64 2 0 = .ok (intVector [1, 2]) ∧ c.slice 64 3 2 = .ok (intVector [3, 4, 5]) :=
  concat_slice_recovers 64 (intVector [1, 2]) (intVector [3, 4, 5]) (by decide) (by decide)
    (by decide)

/-- C4 (as amended).  An integer vector with at least one element, divided by the scalar 0
through `operator/(const T&)`: the operator does not test the divisor, evaluates
`data[0] / 0`, and so has undefined behaviour; it returns no vector and throws nothing. -/
theorem opDivScalar_int_zero {sgn : Bool} {w N : Nat} (v : MathematicalVector (MachInt sgn w) N)
    (hN : 0 < N) :
    v.opDivScalar (MachInt.ofInt 0) = .undefined ∧
      ∀ e, v.opDivScalar (MachInt.ofInt 0) ≠ .thrown e := by
  have h : v.opDivScalar (MachInt.ofInt 0) = .undefined :=
    opDivScalar_first v (MachInt.ofInt 0) hN
      (fun x => MachInt.div_by_zero x _ MachInt.ofInt_zero_bits)
  refine ⟨h, ?_⟩
  intro e he
  rw [h] at he
  cases he

/-- C4 at the all-zero `MathematicalVector<int, 5>`. -/
theorem opDivScalar_int_zero_witness :
    (ctorDefault 5 : MathematicalVector CInt 5).opDivScalar (MachInt.ofInt 0) = .undefined ∧
      ∀ e, (ctorDefault 5 : MathematicalVector CInt 5).opDivScalar (MachInt.ofInt 0)
        ≠ .thrown e :=
  opDivScalar_int_zero (ctorDefault 5 : MathematicalVector CInt 5) (by decide)

/-- C4 as stated fails: no exception of any kind comes out of dividing the all-zero
`MathematicalVector<int, 5>` by 0. -/
theorem opDivScalar_zero_not_thrown :
    ¬ ∃ e, (ctorDefault 5 : MathematicalVector CInt 5).opDivScalar (MachInt.ofInt 0)
      = .thrown e := by
  intro ⟨e, he⟩
  have h : (ctorDefault 5 : MathematicalVector CInt 5).opDivScalar (MachInt.ofInt 0)
      = .undefined := by decide
  rw [h] at he
  cases he

/-- C5 (defect in the code).  One vector `v` is alive (`instanceCount = 1`,
`totalCreated = 1`).  `concat(v)` brings one more vector into existence, a copy of `v`;
the copy is then destroyed.  `instanceCount` ends at 0, not at the baseline 1, and
`totalCreated` is still 1, not 2.  Destroying `v` afterwards takes `instanceCount` from 0
to `SIZE_MAX`. -/
theorem copy_not_counted :
    run 64 ⟨0, 0⟩ [.construct .default] = ⟨1, 1⟩ ∧
    run 64 ⟨1, 1⟩ [.construct .copy] = ⟨1, 1⟩ ∧
    run 64 ⟨1, 1⟩ [.construct .copy, .destroy] = ⟨0, 1⟩ ∧
    run 64 ⟨1, 1⟩ [.construct .copy, .destroy, .destroy] = ⟨2 ^ 64 - 1, 1⟩ := by
  decide

/-- C6.  For an integer vector `v` and an integer scalar `s`, `v + s` returns a vector
`r`, and `r - s` returns `v`. -/
theorem add_sub_scalar_roundtrip {sgn : Bool} {w N : Nat}
    (v : MathematicalVector (MachInt sgn w) N) (s : MachInt sgn w) :
    (v.opAddScalar s).bind (fun r => r.opSubScalar s) = .ok v := by
  obtain ⟨r1, h1, d1⟩ := opAddScalar_data v s
  obtain ⟨r2, h2, d2⟩ := opSubScalar_data r1 s
  rw [h1, Outcome.bind_ok, h2]
  congr 1
  apply ext_data
  rw [d2, d1, List.map_map]
  have hid : ((fun x => CppNum.sub x s) ∘ fun x => CppNum.add x s)
      = (id : MachInt sgn w → MachInt sgn w) := by
    funext x
    exact MachInt.add_sub_cancel x s
  rw [hid, List.map_id]

/-- C7 as stated fails: `-1` is not zero, yet dividing the `int` vector
`[-2147483648, 0, 0, 0, 0]` by `-1` returns no vector, because the first quotient is not a
value of `int`. -/
theorem opDivScalar_least_by_minus_one :
    (MachInt.ofInt (-1) : CInt).toInt ≠ 0 ∧
    (intVector [-2147483648, 0, 0, 0, 0]).opDivScalar (MachInt.ofInt (-1)) = .undefined := by
  decide

/-- C7 (as amended).  For every element type: `v + s`, `v - s`, `v * s` return a vector
whose element `i` is `v[i] + s`, `v[i] - s`, `v[i] * s`; `v / s` returns a vector whose
element `i` is `v[i] / s` when every such quotient has a value.  For the integer types the
quotients have a value when `s` is not zero and, in `int` or a wider signed type, no
element is the least value while `s` is `-1`; element `i` is then the quotient truncated
toward zero, stored into the element type.  The operators are functions of `v`: they
have no access to change it.  The `int` vector `[1, 2, 3, 4, 5]` plus 10 is
`[11, 12, 13, 14, 15]`; the `short` vector `[-32768, 7]` divided by `-1` is
`[-32768, -7]`. -/
theorem scalar_ops_elementwise :
    (∀ (T : Type) [CppNum T] (N : Nat) (v : MathematicalVector T N) (s : T),
      (∃ r, v.opAddScalar s = .ok r ∧
        ∀ i, i < N → r.data[i]? = (v.data[i]?).map (fun x => CppNum.add x s)) ∧
      (∃ r, v.opSubScalar s = .ok r ∧
        ∀ i, i < N → r.data[i]? = (v.data[i]?).map (fun x => CppNum.sub x s)) ∧
      (∃ r, v.opMulScalar s = .ok r ∧
        ∀ i, i < N → r.data[i]? = (v.data[i]?).map (fun x => CppNum.mul x s)) ∧
      ((∀ x, x ∈ v.data → (CppNum.div x s).isSome) →
        ∃ r, v.opDivScalar s = .ok r ∧
          ∀ i, i < N → r.data[i]? = (v.data[i]?).bind (fun x => CppNum.div x s))) ∧
    (∀ (sgn : Bool) (w N : Nat) (v : MathematicalVector (MachInt sgn w) N)
        (s : MachInt sgn w),
      s.toInt ≠ 0 →
      (∀ x, x ∈ v.data →
        ¬ (intBits ≤ w ∧ 2 * x.toInt = -((2 ^ w : Nat) : Int) ∧ s.toInt = -1)) →
      ∃ r, v.opDivScalar s = .ok r ∧
        ∀ (i : Nat) (x : MachInt sgn w), v.data[i]? = some x →
          ∃ q, r.data[i]? = some q ∧ q = MachInt.ofInt (Int.tdiv x.toInt s.toInt) ∧
            (¬ (2 * x.toInt = -((2 ^ w : Nat) : Int) ∧ s.toInt = -1) →
              q.toInt = Int.tdiv x.toInt s.toInt)) ∧
    (intVector [1, 2, 3, 4, 5]).opAddScalar (MachInt.ofInt 10)
      = .ok (intVector [11, 12, 13, 14, 15]) ∧
    MathematicalVector.opDivScalar
        (⟨[MachInt.ofInt (-32768), MachInt.ofInt 7], rfl⟩ :
          MathematicalVector (MachInt true 16) 2) (MachInt.ofInt (-1))
      = .ok ⟨[MachInt.ofInt (-32768), MachInt.ofInt (-7)], rfl⟩ := by
  refine ⟨?_, ?_, by decide, by decide⟩
  · intro T _ N v s
    refine ⟨?_, ?_, ?_, opDivScalar_data v s⟩
    · obtain ⟨r, hr, hd⟩ := opAddScalar_data v s
      exact ⟨r, hr, fun i _ => by rw [hd, List.getElem?_map]⟩
    · obtain ⟨r, hr, hd⟩ := opSubScalar_data v s
      exact ⟨r, hr, fun i _ => by rw [hd, List.getElem?_map]⟩
    · obtain ⟨r, hr, hd⟩ := opMulScalar_data v s
      exact ⟨r, hr, fun i _ => by rw [hd, List.getElem?_map]⟩
  · intro sgn w N v s hs hcorner
    have hdef : ∀ x, x ∈ v.data → (CppNum.div x s).isSome :=
      fun x hx => (MachInt.div_isSome_iff x s).mpr ⟨hs, hcorner x hx⟩
    obtain ⟨r, hr, hel⟩ := opDivScalar_data v s hdef
    refine ⟨r, hr, ?_⟩
    intro i x hix
    have hi : i < N := by
      by_contra hge
      rw [getElem?_ge v (by omega)] at hix
      cases hix
    obtain ⟨q, hq⟩ := Option.isSome_iff_exists.mp (hdef x (List.getElem?_mem hix))
    refine ⟨q, ?_, (MachInt.div_eq_some hq).1, (MachInt.div_eq_some hq).2⟩
    rw [hel i hi, hix, Option.some_bind, hq]

/-- C8.  `resize<M>()` returns, and its result has element `i` equal to `a[i]` for
`i < min N M` and equal to `T{}` for `N ≤ i < M`. -/
theorem resize_spec {T : Type} [CppNum T] {N : Nat} (M : Nat) (a : MathematicalVector T N) :
    ∃ r, a.resize M = .ok r ∧
      (∀ i, i < min N M → r.data[i]? = a.data[i]?) ∧
      (∀ i, N ≤ i → i < M → r.data[i]? = some CppNum.zero) := by
  obtain ⟨r, hr, hel⟩ := resize_getElem? M a
  refine ⟨r, hr, ?_, ?_⟩
  · intro i hi
    rw [hel i (by omega), if_pos (by omega)]
  · intro i hN hM
    rw [hel i hM, if_neg (by omega)]

/-- C9.  `resize<N>()` on a vector of length `N` returns a vector equal to it. -/
theorem resize_same_size {T : Type} [CppNum T] {N : Nat} (a : MathematicalVector T N) :
    a.resize N = .ok a := by
  obtain ⟨r, hr, hel⟩ := resize_getElem? N a
  rw [hr]
  congr 1
  apply ext_getElem?
  intro i hi
  rw [hel i hi, if_pos hi]

/-- C10.  For vectors of one element type whose `+` is commutative, `a + b` and `b + a`
return the same vector; `plus` is the built-in `+` of the element type, with values in
the result type `R`. -/
theorem opAdd_comm {T R : Type} [CppNum R] {N : Nat} (plus : T → T → R)
    (a b : MathematicalVector T N) (hcomm : ∀ x y : T, plus x y = plus y x) :
    ∃ r, a.opAdd plus b = .ok r ∧ b.opAdd plus a = .ok r := by
  obtain ⟨r, hr, hel⟩ := opAdd_getElem? plus a b
  obtain ⟨r1, hr1, hel1⟩ := opAdd_getElem? plus b a
  refine ⟨r, hr, ?_⟩
  rw [hr1]
  congr 1
  apply ext_getElem?
  intro i hi
  obtain ⟨x, hx⟩ := getElem?_lt a hi
  obtain ⟨y, hy⟩ := getElem?_lt b hi
  rw [hel i x y hx hy, hel1 i y x hy hx, hcomm]

/-- C10 at the `int` vectors `[1, 2, 3]` and `[2147483647, -5, 0]`. -/
theorem opAdd_comm_witness :
    ∃ r, (intVector [1, 2, 3]).opAdd MachInt.plus (intVector [2147483647, -5, 0]) = .ok r ∧
      (intVector [2147483647, -5, 0]).opAdd MachInt.plus (intVector [1, 2, 3]) = .ok r :=
  opAdd_comm MachInt.plus (intVector [1, 2, 3]) (intVector [2147483647, -5, 0])
    MachInt.plus_comm

/-- C11.  The fill constructor gives a vector whose element `i` is `v` for every
`i < N`, the default constructor one whose element `i` is `T{}` for every `i < N`; the
default vector is the vector filled with `T{}`. -/
theorem ctor_fill_default {T : Type} [CppNum T] (N : Nat) (v : T) :
    (∀ i, i < N → (ctorFill N v).data[i]? = some v ∧ (ctorFill N v).read i = .ok v) ∧
    (∀ i, i < N → (ctorDefault N : MathematicalVector T N).data[i]? = some CppNum.zero ∧
      (ctorDefault N : MathematicalVector T N).read i = .ok CppNum.zero) ∧
    (ctorDefault N : MathematicalVector T N) = ctorFill N CppNum.zero := by
  refine ⟨?_, ?_, rfl⟩
  · intro i hi
    have h : (ctorFill N v).data[i]? = some v := by
      simp only [ctorFill, filled, List.getElem?_replicate, if_pos hi]
    exact ⟨h, read_eq_ok _ h⟩
  · intro i hi
    have h : (ctorDefault N : MathematicalVector T N).data[i]? = some CppNum.zero := by
      rw [ctorDefault_getElem?, if_pos hi]
    exact ⟨h, read_eq_ok _ h⟩

/-- C12 as stated fails: reading or writing element 5 of the `int` vector
`[1, 2, 3, 4, 5]` through `operator[]` throws nothing. -/
theorem index_past_end_not_thrown :
    ¬ (∃ e, (intVector [1, 2, 3, 4, 5]).read 5 = .thrown e) ∧
    ¬ (∃ e, (intVector [1, 2, 3, 4, 5]).write 5 (MachInt.ofInt 0) = .thrown e) := by
  have hr : (intVector [1, 2, 3, 4, 5]).read 5 = .undefined := by decide
  have hw : (intVector [1, 2, 3, 4, 5]).write 5 (MachInt.ofInt 0) = .undefined := by decide
  constructor
  · intro ⟨e, he⟩
    rw [hr] at he
    cases he
  · intro ⟨e, he⟩
    rw [hw] at he
    cases he

/-- C12 (as amended).  For `i < N` a read through `operator[]` returns the element and a
write of `x` returns a vector whose element `i` is `x` and whose other elements are as
before.  For `i ≥ N` neither fails with an error: the access is unchecked and its
behaviour is undefined. -/
theorem index_access {T : Type} {N : Nat} (v : MathematicalVector T N) (i : Nat) (x : T) :
    (i < N →
      (∃ y, v.data[i]? = some y ∧ v.read i = .ok y) ∧
      (∃ r, v.write i x = .ok r ∧ r.read i = .ok x ∧ ∀ j, j ≠ i → r.read j = v.read j)) ∧
    (N ≤ i → v.read i = .undefined ∧ v.write i x = .undefined) := by
  constructor
  · intro hi
    refine ⟨read_of_lt v hi, ?_⟩
    obtain ⟨r, hw, hd⟩ := write_of_lt v hi x
    have hlen : i < v.data.length := by rw [v.size_eq]; exact hi
    refine ⟨r, hw, ?_, ?_⟩
    · apply read_eq_ok
      rw [hd, List.getElem?_set, if_pos rfl, if_pos hlen]
    · intro j hj
      simp only [MathematicalVector.read]
      rw [hd, List.getElem?_set, if_neg (fun h => hj h.symm)]
  · intro hi
    refine ⟨read_of_ge v hi, ?_⟩
    simp only [MathematicalVector.write, if_neg (show ¬ i < N by omega)]

/-- C13.  The two-vector `concat` returns a vector of length `N1 + N2` over the result
type: element `i` is `v1[i]` converted for `i < N1`, element `N1 + j` is `v2[j]` converted
for `j < N2`; with one element type nothing is converted.  For the `int` vector `[1, 2]`
and a vector `[x3, x4]` of another type `F` (`float` in the example, the conversion from
`int` to it being `toF`) the result is `[toF 1, toF 2, x3, x4]`. -/
theorem concat_two_spec :
    (∀ (T1 T2 R : Type) [CppNum R] (N1 N2 : Nat) (conv1 : T1 → R) (conv2 : T2 → R)
        (v1 : MathematicalVector T1 N1) (v2 : MathematicalVector T2 N2),
      ∃ c : MathematicalVector R (N1 + N2), concatMixed conv1 conv2 v1 v2 = .ok c ∧
        (∀ (i : Nat) (x : T1), v1.data[i]? = some x → c.data[i]? = some (conv1 x)) ∧
        (∀ (j : Nat) (y : T2), v2.data[j]? = some y → c.data[N1 + j]? = some (conv2 y))) ∧
    (∀ (T : Type) [CppNum T] (N1 N2 : Nat) (v1 : MathematicalVector T N1)
        (v2 : MathematicalVector T N2),
      ∃ c : MathematicalVector T (N1 + N2), concat v1 v2 = .ok c ∧
        (∀ (i : Nat) (x : T), v1.data[i]? = some x → c.data[i]? = some x) ∧
        (∀ (j : Nat) (y : T), v2.data[j]? = some y → c.data[N1 + j]? = some y)) ∧
    (∀ (F : Type) [CppNum F] (toF : CInt → F) (x3 x4 : F),
      concatMixed toF id (intVector [1, 2]) (⟨[x3, x4], rfl⟩ : MathematicalVector F 2)
        = .ok ⟨[toF (MachInt.ofInt 1), toF (MachInt.ofInt 2), x3, x4], rfl⟩) := by
  refine ⟨?_, ?_, ?_⟩
  · intro T1 T2 R _ N1 N2 conv1 conv2 v1 v2
    obtain ⟨c, hc, hd⟩ := concatMixed_data conv1 conv2 v1 v2
    have hlen1 : (v1.data.map conv1).length = N1 := by rw [List.length_map, v1.size_eq]
    refine ⟨c, hc, ?_, ?_⟩
    · intro i x hx
      have hi : i < N1 := by
        by_contra hge
        rw [getElem?_ge v1 (by omega)] at hx
        cases hx
      rw [hd, List.getElem?_append_left (by rw [hlen1]; exact hi), List.getElem?_map, hx]
      rfl
    · intro j y hy
      rw [hd, List.getElem?_append_right (by rw [hlen1]; omega), hlen1,
        Nat.add_sub_cancel_left, List.getElem?_map, hy]
      rfl
  · intro T _ N1 N2 v1 v2
    obtain ⟨c, hc, hd⟩ := concat_data v1 v2
    refine ⟨c, hc, ?_, ?_⟩
    · intro i x hx
      have hi : i < N1 := by
        by_contra hge
        rw [getElem?_ge v1 (by omega)] at hx
        cases hx
      rw [hd, List.getElem?_append_left (by rw [v1.size_eq]; exact hi), hx]
    · intro j y hy
      rw [hd, List.getElem?_append_right (by rw [v1.size_eq]; omega), v1.size_eq,
        Nat.add_sub_cancel_left, hy]
  · intro F _ toF x3 x4
    obtain ⟨c, hc, hd⟩ := concatMixed_data toF id (intVector [1, 2])
      (⟨[x3, x4], rfl⟩ : MathematicalVector F 2)
    rw [hc]
    congr 1
    apply ext_data
    rw [hd]
    rfl

/-- C14.  The call `concat(v)` returns `v`.  A call with three or more vectors is
`concat(concat(v1, v2), v3, ...)`; it returns, its result has the length
`N1 + N2 + N3 + ...` and holds the elements of `v1`, then those of `v2`, and so on to
the last vector, in order. -/
theorem concat_variadic_spec :
    (∀ (T : Type) (N : Nat) (v : MathematicalVector T N), concat1 v = v) ∧
    (∀ (T : Type) [CppNum T] (v1 v2 v3 : AnyVector T) (rest : List (AnyVector T)),
      concatVariadic v1 v2 (v3 :: rest) =
        (concat v1.vec v2.vec).bind
          (fun temp => concatVariadic ⟨v1.len + v2.len, temp⟩ v3 rest)) ∧
    (∀ (T : Type) [CppNum T] (v1 v2 v3 : AnyVector T) (rest : List (AnyVector T)),
      ∃ r, concatVariadic v1 v2 (v3 :: rest) = .ok r ∧
        r.len = v1.len + v2.len + ((v3 :: rest).map (fun v => v.len)).sum ∧
        r.vec.data = v1.vec.data ++ v2.vec.data ++
          ((v3 :: rest).map (fun v => v.vec.data)).flatten) := by
  refine ⟨fun _ _ _ => rfl, fun _ _ _ _ _ _ => rfl, ?_⟩
  intro T _ v1 v2 v3 rest
  exact concatVariadic_data (v3 :: rest) v1 v2

/-- C15.  For integer vectors `a`, `b` and integer weights `w1`, `w2` of one type,
`a.weighted_sum(w1, b, w2)` returns a vector over the result type (`int` for a type
narrower than `int`, the type itself otherwise) whose element `i` is
`w1 * a[i] + w2 * b[i]`: the pattern of that integer in the result type, congruent to it
modulo `2 ^ width`, and equal to it when the integer is a value of the result type.  With
both weights of value 1 the call gives what `a + b` gives.  For the `short` vectors
`[30000, -32768]` and `[30000, -1]` with weights 1 both give the `int` vector
`[60000, -32769]`. -/
theorem weighted_sum_spec {sgn : Bool} {w N : Nat} (a b : MathematicalVector (MachInt sgn w) N)
    (w1 w2 : MachInt sgn w) :
    (∃ r : MathematicalVector (MachInt.Promoted sgn w) N,
      a.weighted_sum MachInt.times MachInt.times MachInt.add w1 b w2 = .ok r ∧
      ∀ (i : Nat) (x y : MachInt sgn w), a.data[i]? = some x → b.data[i]? = some y →
        ∃ z, r.data[i]? = some z ∧
          z = MachInt.ofInt (w1.toInt * x.toInt + w2.toInt * y.toInt) ∧
          z.toInt % ((2 ^ MachInt.promWidth w : Nat) : Int) =
            (w1.toInt * x.toInt + w2.toInt * y.toInt)
              % ((2 ^ MachInt.promWidth w : Nat) : Int) ∧
          (((MachInt.promSigned sgn w = true →
              -((2 ^ MachInt.promWidth w : Nat) : Int)
                  ≤ 2 * (w1.toInt * x.toInt + w2.toInt * y.toInt) ∧
                2 * (w1.toInt * x.toInt + w2.toInt * y.toInt)
                  < ((2 ^ MachInt.promWidth w : Nat) : Int)) ∧
            (MachInt.promSigned sgn w = false →
              0 ≤ w1.toInt * x.toInt + w2.toInt * y.toInt ∧
                w1.toInt * x.toInt + w2.toInt * y.toInt
                  < ((2 ^ MachInt.promWidth w : Nat) : Int))) →
            z.toInt = w1.toInt * x.toInt + w2.toInt * y.toInt)) ∧
    (∀ one : MachInt sgn w, one.toInt = 1 →
      a.weighted_sum MachInt.times MachInt.times MachInt.add one b one
        = a.opAdd MachInt.plus b) ∧
    ((match (⟨[MachInt.ofInt 30000, MachInt.ofInt (-32768)], rfl⟩ :
          MathematicalVector (MachInt true 16) 2).weighted_sum
          MachInt.times MachInt.times MachInt.add (MachInt.ofInt 1)
          (⟨[MachInt.ofInt 30000, MachInt.ofInt (-1)], rfl⟩ :
            MathematicalVector (MachInt true 16) 2) (MachInt.ofInt 1) with
      | .ok r => r.data.map MachInt.toInt
      | _ => []) = [60000, -32769] ∧
     (match (⟨[MachInt.ofInt 30000, MachInt.ofInt (-32768)], rfl⟩ :
          MathematicalVector (MachInt true 16) 2).opAdd MachInt.plus
          (⟨[MachInt.ofInt 30000, MachInt.ofInt (-1)], rfl⟩ :
            MathematicalVector (MachInt true 16) 2) with
      | .ok r => r.data.map MachInt.toInt
      | _ => []) = [60000, -32769]) := by
  refine ⟨?_, ?_, by decide⟩
  · obtain ⟨r, hr, hel⟩ :=
      weighted_sum_getElem? MachInt.times MachInt.times MachInt.add a b w1 w2
    refine ⟨r, hr, ?_⟩
    intro i x y hx hy
    have hz := MachInt.weighted_elem w1 x w2 y
    refine ⟨_, hel i x y hx hy, hz, ?_, ?_⟩
    · rw [hz, MachInt.toInt_emod, MachInt.ofInt_bits]
    · intro hrange
      rw [hz]
      exact (MachInt.toInt_ofInt_iff _).mpr hrange
  · intro one hone
    obtain ⟨r, hr, hel⟩ :=
      weighted_sum_getElem? MachInt.times MachInt.times MachInt.add a b one one
    obtain ⟨r1, hr1, hel1⟩ := opAdd_getElem? MachInt.plus a b
    rw [hr, hr1]
    congr 1
    apply ext_getElem?
    intro i hi
    obtain ⟨x, hx⟩ := getElem?_lt a hi
    obtain ⟨y, hy⟩ := getElem?_lt b hi
    rw [hel i x y hx hy, hel1 i x y hx hy, MachInt.times_one one x hone,
      MachInt.times_one one y hone]
    rfl

/-- C16.  In either branch of the menu, a pass with choice 4 and a scalar that the test
`scalar == 0` finds to be zero writes the rejection line and nothing else: it calls no
core operator and goes on with the loop.  So in every run every call of the division
operator has a scalar that passed the test; in the `int` branch that scalar is not 0. -/
theorem menu_rejects_zero_divisor :
    (∀ (T : Type) [CppNum T] (N : Nat) (isZero : T → Bool) (v1 : MathematicalVector T N)
        (s : T), isZero s = true →
      menuPass isZero v1 (.choice 4 s) = ⟨[.print .divisionByZero], .ok (v1, true)⟩) ∧
    (∀ (T : Type) [CppNum T] (N : Nat) (isZero : T → Bool) (es : List (Entry T))
        (v1 : MathematicalVector T N) (s : T),
      Effect.call .div s ∈ (menuLoop isZero es v1).1 → isZero s = false) ∧
    (∀ (es : List (Entry CInt)) (v1 : MathematicalVector CInt 5) (s : CInt),
      Effect.call .div s ∈ (menuLoop intIsZero es v1).1 → s.toInt ≠ 0) := by
  have hgen : ∀ (T : Type) [CppNum T] (N : Nat) (isZero : T → Bool) (es : List (Entry T))
      (v1 : MathematicalVector T N) (s : T),
      Effect.call .div s ∈ (menuLoop isZero es v1).1 → isZero s = false := by
    intro T _ N isZero es v1 s h
    obtain ⟨e, _, he⟩ := (menuLoop_passes isZero es v1).1 _ h
    exact (menuPass_effects isZero v1 e _ he).1 s rfl
  refine ⟨?_, hgen, ?_⟩
  · intro T _ N isZero v1 s hz
    simp [menuPass, hz]
  · intro es v1 s h
    have hz := hgen CInt 5 intIsZero es v1 s h
    simpa [intIsZero] using hz

/-- C17.  The menu loop does not change the stored vector: a run that ends (by choice 6,
or because no more entries came) still holds the vector it started with; every result it
writes is what one core operator gives on that vector and a scalar; choice 5 writes that
vector.  Adding 10 twice to the `int` vector `[1, 2, 3, 4, 5]` writes
`[11, 12, 13, 14, 15]` both times, and choice 5 then writes `[1, 2, 3, 4, 5]`. -/
theorem menu_keeps_vector :
    (∀ (T : Type) [CppNum T] (N : Nat) (isZero : T → Bool) (es : List (Entry T))
        (v1 v : MathematicalVector T N),
      (menuLoop isZero es v1).2 = .ok v → v = v1) ∧
    (∀ (T : Type) [CppNum T] (N : Nat) (isZero : T → Bool) (es : List (Entry T))
        (v1 r : MathematicalVector T N),
      Effect.print (.result r) ∈ (menuLoop isZero es v1).1 →
        ∃ op s, ScalarOp.apply op v1 s = .ok r) ∧
    (∀ (T : Type) [CppNum T] (N : Nat) (isZero : T → Bool) (es : List (Entry T))
        (v1 v : MathematicalVector T N),
      Effect.print (.yourVector v) ∈ (menuLoop isZero es v1).1 → v = v1) ∧
    (∀ (T : Type) [CppNum T] (N : Nat) (isZero : T → Bool) (v1 : MathematicalVector T N)
        (s : T),
      menuPass isZero v1 (.choice 5 s) = ⟨[.print (.yourVector v1)], .ok (v1, true)⟩) ∧
    menuLoop intIsZero
        [.choice 1 (MachInt.ofInt 10), .choice 1 (MachInt.ofInt 10),
          .choice 5 (MachInt.ofInt 0), .choice 6 (MachInt.ofInt 0)]
        (intVector [1, 2, 3, 4, 5])
      = ([.call .add (MachInt.ofInt 10), .print (.result (intVector [11, 12, 13, 14, 15])),
          .call .add (MachInt.ofInt 10), .print (.result (intVector [11, 12, 13, 14, 15])),
          .print (.yourVector (intVector [1, 2, 3, 4, 5])), .print .exit],
        .ok (intVector [1, 2, 3, 4, 5])) := by
  refine ⟨?_, ?_, ?_, ?_, by decide⟩
  · intro T _ N isZero es v1 v h
    exact (menuLoop_passes isZero es v1).2 v h
  · intro T _ N isZero es v1 r h
    obtain ⟨e, _, he⟩ := (menuLoop_passes isZero es v1).1 _ h
    exact (menuPass_effects isZero v1 e _ he).2.1 r rfl
  · intro T _ N isZero es v1 v h
    obtain ⟨e, _, he⟩ := (menuLoop_passes isZero es v1).1 _ h
    exact (menuPass_effects isZero v1 e _ he).2.2 v rfl
  · intro T _ N isZero v1 s
    simp [menuPass]

/-- C18.  For vectors `a`, `b`, `c` of one element type, `concat(concat(a, b), c)` and
`concat(a, concat(b, c))` return vectors with the same elements in the same order, and
the three-vector call `concat(a, b, c)` returns the first of them. -/
theorem concat_assoc {T : Type} [CppNum T] {N1 N2 N3 : Nat} (a : MathematicalVector T N1)
    (b : MathematicalVector T N2) (c : MathematicalVector T N3) :
    ∃ (ab : MathematicalVector T (N1 + N2)) (abc : MathematicalVector T (N1 + N2 + N3))
      (bc : MathematicalVector T (N2 + N3)) (abc1 : MathematicalVector T (N1 + (N2 + N3))),
      concat a b = .ok ab ∧ concat ab c = .ok abc ∧
      concat b c = .ok bc ∧ concat a bc = .ok abc1 ∧
      abc.data = abc1.data ∧ (∀ i : Nat, abc.data[i]? = abc1.data[i]?) ∧
      concatVariadic ⟨N1, a⟩ ⟨N2, b⟩ [⟨N3, c⟩] = .ok ⟨N1 + N2 + N3, abc⟩ := by
  obtain ⟨ab, hab, dab⟩ := concat_data a b
  obtain ⟨abc, habc, dabc⟩ := concat_data ab c
  obtain ⟨bc, hbc, dbc⟩ := concat_data b c
  obtain ⟨abc1, habc1, dabc1⟩ := concat_data a bc
  have hdata : abc.data = abc1.data := by
    rw [dabc, dab, dabc1, dbc, List.append_assoc]
  refine ⟨ab, abc, bc, abc1, hab, habc, hbc, habc1, hdata, ?_, ?_⟩
  · intro i
    rw [hdata]
  · simp only [concatVariadic, hab, Outcome.bind_ok, habc]

/-- C19.  For `0 < M ≤ N`, `a.slice<M>(0)` returns, and `a.resize<M>()` returns the same
vector; `a.slice<N>(0)` returns `a`.  `N < 2 ^ w` says that the length is a value of
`std::size_t`. -/
theorem resize_eq_slice_zero {T : Type} [CppNum T] {N : Nat} (w M : Nat)
    (a : MathematicalVector T N) (_hM : 0 < M) (hMN : M ≤ N) (hN : N < 2 ^ w) :
    (∃ r, a.slice w M 0 = .ok r ∧ a.resize M = .ok r) ∧ a.slice w N 0 = .ok a := by
  constructor
  · obtain ⟨r, hr, hel⟩ := slice_in_range w M a 0 hN (by omega)
    obtain ⟨r1, hr1, hel1⟩ := resize_getElem? M a
    refine ⟨r, hr, ?_⟩
    rw [hr1]
    congr 1
    apply ext_getElem?
    intro i hi
    rw [hel1 i hi, if_pos (by omega), hel i hi, Nat.zero_add]
  · obtain ⟨r, hr, hel⟩ := slice_in_range w N a 0 hN (by omega)
    rw [hr]
    congr 1
    apply ext_getElem?
    intro i hi
    rw [hel i hi, Nat.zero_add]

/-- C19 at the `int` vector `[1, 2, 3, 4, 5]`, `M = 3`, with a 64-bit `std::size_t`. -/
theorem resize_eq_slice_zero_witness :
    (∃ r, (intVector [1, 2, 3, 4, 5]).slice 64 3 0 = .ok r ∧
      (intVector [1, 2, 3, 4, 5]).resize 3 = .ok r) ∧
    (intVector [1, 2, 3, 4, 5]).slice 64 5 0 = .ok (intVector [1, 2, 3, 4, 5]) :=
  resize_eq_slice_zero 64 3 (intVector [1, 2, 3, 4, 5]) (by decide) (by decide) (by decide)

/-- C20.  Both calls of `a.resize<M>().resize<N>()` return.  For `M ≥ N` the result is
`a`; for `M < N` its element `i` is `a[i]` for `i < M` and `T{}` for `M ≤ i < N`. -/
theorem resize_resize {T : Type} [CppNum T] {N : Nat} (M : Nat) (a : MathematicalVector T N) :
    ∃ (r1 : MathematicalVector T M) (r2 : MathematicalVector T N),
      a.resize M = .ok r1 ∧ r1.resize N = .ok r2 ∧
      (N ≤ M → r2 = a) ∧
      (M < N → ∀ i, i < N →
        r2.data[i]? = if i < M then a.data[i]? else some CppNum.zero) := by
  obtain ⟨r1, hr1, hel1⟩ := resize_getElem? M a
  obtain ⟨r2, hr2, hel2⟩ := resize_getElem? N r1
  refine ⟨r1, r2, hr1, hr2, ?_, ?_⟩
  · intro hNM
    apply ext_getElem?
    intro i hi
    rw [hel2 i hi, if_pos (by omega), hel1 i (by omega), if_pos hi]
  · intro hMN i hi
    rw [hel2 i hi]
    by_cases hiM : i < M
    · rw [if_pos hiM, if_pos hiM, hel1 i hiM, if_pos hi]
    · rw [if_neg hiM, if_neg hiM]

end Lb3
